import Mathlib

/-!
# create-sequence

A shallow embedding of `src/create-sequence.js`.

`createSequence(producer)` wraps a producer (array, array-like object, iterable,
generator function or plain function) into an object that can be called, iterated
and asked for its first value.  The JavaScript closure state (`firstValue`,
`firstValueTaken`, `firstValueSent`, the generator object `generator`) becomes an
explicit `State`; every generator object created by `nextValue()` is represented by
the `yield` it is suspended at.
-/

namespace CreateSequence

/-! ## Values, producers -/

/-- A JavaScript value: `undefined`, or any other value (taken from `α`). -/
inductive Value (α : Type) where
  | undefined
  | val (a : α)
deriving DecidableEq, Repr

/-- An exception, identified by its message. -/
abbrev Error := String

/-- The reply of one `next()` of an iterator: `{value: v, done: false}`,
`{done: true}`, or an exception. -/
inductive Pull (α : Type) where
  | yield (v : Value α)
  | done
  | throw (e : Error)
deriving DecidableEq, Repr

/-- What `typeof` and `Array.isArray` tell about a producer: an array, another object,
a function (of any sort, `typeof producer === 'function'`), a primitive (number,
boolean, string, ..., with its truthiness), or `null` / `undefined`. -/
inductive Kind where
  | array
  | object
  | function
  | primitive (truthy : Bool)
  | nullish
deriving DecidableEq, Repr

/-- What line 29 finds in `producer.prototype`: something whose `typeof` is not
`'object'` (`undefined`, a function, a primitive); `null`, whose `typeof` is `'object'`;
an object whose `Symbol.iterator` is not a function; an object whose `Symbol.iterator`
is a function. -/
inductive Prototype where
  | notObject
  | null
  | plain
  | iterable
deriving DecidableEq, Repr

/-- What the invocation `producer()` of line 31 gives: a value, described by its
truthiness and by the replies of the successive `next()` calls when a `for...of`
iterates it (a `TypeError` at once when it is not iterable); or an exception. -/
inductive Invocation (α : Type) where
  | returns (truthy : Bool) (replies : Nat → Pull α)
  | throws (e : Error)

/-- What `Array.from` makes of a numeric `length`: an array of `n` elements, or a
`RangeError` when the length is above what an array can hold (`2 ** 32 - 1`). -/
inductive Length where
  | fits (n : Nat)
  | tooLong
deriving DecidableEq, Repr

/-- The producer handed to `createSequence`, described by what the code can observe of it.

* `kind`: see `Kind`;
* `iterator`: `none` when `producer[Symbol.iterator]` is `undefined`, otherwise the
  replies of the successive `next()` calls when a `for...of` iterates the producer (a
  `TypeError` at once when the property is not a function returning an iterator);
* `prototype`: see `Prototype`;
* `invocation`: see `Invocation`; only read when line 31 is reached with a function;
* `length`: `none` when `typeof producer.length !== 'number'`, otherwise see `Length`;
* `item k`: `producer[k]`;
* `result k`: for a function, what its invocation returns or throws in round `k`
  (from 0) of the loop of lines 45-48; for a function that is only invoked there,
  this is its `k`-th invocation. -/
structure Producer (α : Type) where
  kind : Kind
  iterator : Option (Nat → Pull α)
  prototype : Prototype
  invocation : Invocation α
  length : Option Length
  item : Nat → Value α
  result : Nat → Except Error (Value α)

/-- The iterator protocol of an array (or of a generator that yields the elements of
`xs` and returns): the `k`-th `next()` gives `xs[k]`, and `done` past the end. -/
def listScript {α : Type} (xs : List (Value α)) (k : Nat) : Pull α :=
  match xs.get? k with
  | some v => .yield v
  | none => .done

/-- The array `[x0, ..., xn]`. -/
def ofArray {α : Type} (xs : List (Value α)) : Producer α where
  kind := .array
  iterator := some (listScript xs)
  prototype := .notObject
  invocation := .throws "TypeError"
  length := some (.fits xs.length)
  item := fun k => xs.getD k .undefined
  result := fun _ => .ok .undefined

/-- The array-like object `{0: x0, ..., n: xn, length: n + 1}`. -/
def ofArrayLike {α : Type} (xs : List (Value α)) : Producer α where
  kind := .object
  iterator := none
  prototype := .notObject
  invocation := .throws "TypeError"
  length := some (.fits xs.length)
  item := fun k => xs.getD k .undefined
  result := fun _ => .ok .undefined

/-- An object whose `[Symbol.iterator]()` returns an iterator replying `it`. -/
def ofIterable {α : Type} (it : Nat → Pull α) : Producer α where
  kind := .object
  iterator := some it
  prototype := .notObject
  invocation := .throws "TypeError"
  length := none
  item := fun _ => .undefined
  result := fun _ => .ok .undefined

/-- A generator function `function* () { ... }` whose generator objects reply `body`:
a function whose `prototype` is an object carrying a `Symbol.iterator` method, and
whose invocation returns a generator object.  (A function has a numeric `length`, its
number of parameters.) -/
def ofGeneratorFunction {α : Type} (body : Nat → Pull α) : Producer α where
  kind := .function
  iterator := none
  prototype := .iterable
  invocation := .returns true body
  length := some (.fits 0)
  item := fun _ => .undefined
  result := fun _ => .ok .undefined

/-- A plain function whose `k`-th invocation returns or throws `result k`; its
`prototype` is an ordinary object (or `undefined` for an arrow function, which the
code treats alike). -/
def ofFunction {α : Type} (result : Nat → Except Error (Value α)) : Producer α where
  kind := .function
  iterator := none
  prototype := .plain
  invocation := .returns true fun _ => .throw "TypeError"
  length := some (.fits 0)
  item := fun _ => .undefined
  result := result

/-! ## The closure state -/

/-- State of the generator object `generator` (lines 24-50). -/
inductive GenStatus where
  | suspendedStart
  | suspendedYield
  | completed
deriving DecidableEq, Repr

/-- The mutable state closed over by the sequence.

`pulled` counts the values `generator` has yielded so far, that is the position of
the loop it is suspended in; `invoked` counts the invocations `producer()`. -/
structure State (α : Type) where
  firstValue : Value α
  firstValueTaken : Bool
  firstValueSent : Bool
  generator : GenStatus
  pulled : Nat
  invoked : Nat
deriving DecidableEq, Repr

/-- The `yield` a generator object made by `nextValue()` is suspended at:
not started, line 65, line 70, line 74, or finished. -/
inductive Phase where
  | start
  | yield65
  | yield70
  | yield74
  | finished
deriving DecidableEq, Repr

/-! ## The generator `generator` (lines 24-50) -/

/-- The truthiness of the producer: every object and function is truthy, `null` and
`undefined` are not. -/
def truthy {α : Type} (p : Producer α) : Bool :=
  match p.kind with
  | .primitive t => t
  | .nullish => false
  | _ => true

/-- The test `typeof producer === 'function'`; only such a producer can be invoked. -/
def isFunction {α : Type} (p : Producer α) : Bool :=
  p.kind = .function

/-- The copy `Array.from(producer)` of line 34 for a producer that has no iterator:
the indexed elements up to the length, or a `RangeError`. -/
def arrayFrom {α : Type} (p : Producer α) : Except Error (List (Value α)) :=
  match p.length with
  | some (.fits n) => .ok ((List.range n).map p.item)
  | some .tooLong => .error "RangeError"
  | none => .ok []

/-- Lines 25-35: the value given to `producerIterator`, as the replies of iterating it;
`none` when it stays `undefined` or is another falsy value (line 40 only tests its
truthiness).  The tests are, in this order:

* line 26, `producer[Symbol.iterator]` is defined (reading a property of `null` or
  `undefined` throws a `TypeError`): the producer itself;
* line 29, `producer.prototype` has `typeof` `'object'` and its `Symbol.iterator` is a
  function (reading that from `null` throws a `TypeError`): what `producer()` returns
  (a `TypeError` when the producer is not a function);
* line 32, `typeof producer === 'object'` with a numeric `length`: `Array.from`. -/
def producerIterator {α : Type} (p : Producer α) : Except Error (Option (Nat → Pull α)) :=
  if p.kind = .nullish then
    .error "TypeError"
  else if p.iterator.isSome then
    -- Direct iterator
    .ok (if truthy p then p.iterator else none)
  else if p.prototype = .null then
    .error "TypeError"
  else if p.prototype = .iterable then
    -- Generator function
    if isFunction p then
      match p.invocation with
      | .returns true replies => .ok (some replies)
      | .returns false _ => .ok none
      | .throws e => .error e
    else
      .error "TypeError"
  else if (p.kind = .array ∨ p.kind = .object) ∧ p.length.isSome then
    -- Array-like object
    match arrayFrom p with
    | .ok xs => .ok (some (listScript xs))
    | .error e => .error e
  else
    .ok none

/-- Whether lines 25-35 invoke `producer()`: line 31 is reached, with a producer that
can be invoked. -/
def invokesGenerator {α : Type} (p : Producer α) : Bool :=
  p.kind ≠ .nullish ∧ p.iterator.isNone ∧ p.prototype = .iterable ∧ isFunction p

/-- Whether the loop of lines 44-48 is the one that runs: `producer` is not an array,
`producerIterator` is not truthy, and `typeof producer === 'function'`. -/
def callsProducer {α : Type} (p : Producer α) : Bool :=
  if p.kind = .array then
    false
  else
    match producerIterator p with
    | .ok none => isFunction p
    | _ => false

/-- Lines 36-49: the reply of the loop at its `k`-th round (from 0).

* `Array.isArray(producer)`: `for (let v of producer)`, which asks the array for its
  iterator (a `TypeError` if there is none);
* `producerIterator` is truthy: `for (let v of producerIterator)`;
* `typeof producer === 'function'`: `producer()` in an endless loop;
* otherwise the generator body ends at once. -/
def loopPull {α : Type} (p : Producer α) (k : Nat) : Pull α :=
  if p.kind = .array then
    match p.iterator with
    | some it => it k
    | none => .throw "TypeError"
  else
    match producerIterator p with
    | .error e => .throw e
    | .ok (some it) => it k
    | .ok none =>
      if isFunction p then
        match p.result k with
        | .ok v => .yield v
        | .error e => .throw e
      else
        .done

/-- Resume `generator` inside its loop: a yielded value suspends it again, the end of
the loop or an exception completes it. -/
def generatorResume {α : Type} (p : Producer α) (s : State α) : Pull α × State α :=
  let s1 := if callsProducer p then { s with invoked := s.invoked + 1 } else s
  match loopPull p s.pulled with
  | .yield v => (.yield v, { s1 with generator := .suspendedYield, pulled := s.pulled + 1 })
  | .done => (.done, { s1 with generator := .completed })
  | .throw e => (.throw e, { s1 with generator := .completed })

/-- One `generator.next()`.  The first one runs lines 25-35, where an exception
completes the generator, and then enters the loop. -/
def generatorNext {α : Type} (p : Producer α) (s : State α) : Pull α × State α :=
  match s.generator with
  | .completed => (.done, s)
  | .suspendedYield => generatorResume p s
  | .suspendedStart =>
    let s1 := if invokesGenerator p then { s with invoked := s.invoked + 1 } else s
    match producerIterator p with
    | .error e => (.throw e, { s1 with generator := .completed })
    | .ok _ => generatorResume p s1

/-- One `generator.return()`, as a `for...of` over `generator` performs when it is
left early: a generator that is not completed becomes completed. -/
def generatorReturn {α : Type} (s : State α) : State α :=
  { s with generator := .completed }

/-! ## `getFirstValue` and `nextValue` (lines 52-76) -/

/-- `getFirstValue()` (lines 52-58). -/
def getFirstValue {α : Type} (p : Producer α) (s : State α) :
    Except Error (Value α) × State α :=
  if !s.firstValueTaken then
    match generatorNext p s with
    | (.yield v, s1) => (.ok v, { s1 with firstValue := v, firstValueTaken := true })
    | (.done, s1) =>
      (.ok .undefined, { s1 with firstValue := .undefined, firstValueTaken := true })
    | (.throw e, s1) => (.error e, s1)
  else
    (.ok s.firstValue, s)

/-- Lines 73-75, one round of `for (let value of generator)`. -/
def nextValueLoop {α : Type} (p : Producer α) (s : State α) : Pull α × Phase × State α :=
  match generatorNext p s with
  | (.yield v, s1) => (.yield v, .yield74, s1)
  | (.done, s1) => (.done, .finished, s1)
  | (.throw e, s1) => (.throw e, .finished, s1)

/-- Lines 67-75, entered at the test `if (!firstValueSent)`. -/
def nextValueFrom67 {α : Type} (p : Producer α) (s : State α) : Pull α × Phase × State α :=
  if !s.firstValueSent then
    (.yield s.firstValue, .yield70, { s with firstValueSent := true })
  else
    nextValueLoop p s

/-- One `next()` of a generator object made by `nextValue()` (lines 60-76) that is
suspended at `ph`. -/
def nextValueNext {α : Type} (p : Producer α) (ph : Phase) (s : State α) :
    Pull α × Phase × State α :=
  match ph with
  | .start =>
    if !s.firstValueTaken then
      match getFirstValue p s with
      | (.ok v, s1) => (.yield v, .yield65, { s1 with firstValueSent := true })
      | (.error e, s1) => (.throw e, .finished, s1)
    else
      nextValueFrom67 p s
  | .yield65 => nextValueFrom67 p s
  | .yield70 => nextValueLoop p s
  | .yield74 => nextValueLoop p s
  | .finished => (.done, .finished, s)

/-- One `return()` of a generator object made by `nextValue()`: suspended inside
`for (let value of generator)` (line 74) it closes `generator`; elsewhere it only
finishes. -/
def nextValueReturn {α : Type} (ph : Phase) (s : State α) : Phase × State α :=
  match ph with
  | .yield74 => (.finished, generatorReturn s)
  | _ => (.finished, s)

/-- The `apply` trap (line 83): `nextValue().next().value`. -/
def apply {α : Type} (p : Producer α) (s : State α) : Except Error (Value α) × State α :=
  match nextValueNext p .start s with
  | (.yield v, _, s1) => (.ok v, s1)
  | (.done, _, s1) => (.ok .undefined, s1)
  | (.throw e, _, s1) => (.error e, s1)

/-- The `set` and `setPrototypeOf` traps (lines 79-81, 126-127). -/
def notAllowed {α : Type} (s : State α) : Except Error (Value α) × State α :=
  (.error "This operation is not allowed", s)

/-! ## The sequence object and its consumers -/

/-- A sequence together with the iterator objects obtained from it so far.  The
iterator that `sequence[Symbol.iterator]()` returns (lines 89-93) only forwards to
one generator object made by `nextValue()`, created at its first `next()`; it is
represented by the phase of that object. -/
structure Sequence (α : Type) where
  state : State α
  iterators : List Phase
deriving DecidableEq, Repr

/-- `createSequence(producer)` (lines 19-23): nothing is read from the producer yet,
the body of `generator` only runs at its first `next()`. -/
def createSequence {α : Type} (_producer : Producer α) : Sequence α where
  state :=
    { firstValue := .undefined
      firstValueTaken := false
      firstValueSent := false
      generator := .suspendedStart
      pulled := 0
      invoked := 0 }
  iterators := []

/-- What a consumer can do with a sequence. -/
inductive Op where
  /-- The call `sequence()`. -/
  | call
  /-- The read `sequence.value`. -/
  | value
  /-- The iterator creation `sequence[Symbol.iterator]()`, as `for...of` does on entry. -/
  | iterator
  /-- The `next()` of the `i`-th iterator created (from 0). -/
  | next (i : Nat)
  /-- The `return()` of the `i`-th iterator created: what `break` does in a `for...of`. -/
  | ret (i : Nat)
  /-- An assignment `sequence.key = v`. -/
  | set
  /-- The call `Object.setPrototypeOf(sequence, proto)`. -/
  | setPrototypeOf
deriving DecidableEq, Repr

/-- What the consumer observes of one operation: a value (returned by a call or a
read, or delivered by an iterator), the end of an iteration, an exception, or
nothing of interest (an iterator was created). -/
inductive Outcome (α : Type) where
  | value (v : Value α)
  | done
  | error (e : Error)
  | unit
deriving DecidableEq, Repr

/-- The outcome of a returned or thrown completion. -/
def Outcome.ofExcept {α : Type} : Except Error (Value α) → Outcome α
  | .ok v => .value v
  | .error e => .error e

/-- The outcome of an iterator reply. -/
def Outcome.ofPull {α : Type} : Pull α → Outcome α
  | .yield v => .value v
  | .done => .done
  | .throw e => .error e

/-- One operation on a sequence (the traps of lines 82-128). -/
def perform {α : Type} (p : Producer α) (op : Op) (q : Sequence α) :
    Outcome α × Sequence α :=
  match op with
  | .call =>
    let r := apply p q.state
    (Outcome.ofExcept r.1, { q with state := r.2 })
  | .value =>
    let r := getFirstValue p q.state
    (Outcome.ofExcept r.1, { q with state := r.2 })
  | .iterator => (.unit, { q with iterators := q.iterators ++ [Phase.start] })
  | .next i =>
    match q.iterators.get? i with
    | none => (.unit, q)
    | some ph =>
      let r := nextValueNext p ph q.state
      (Outcome.ofPull r.1, { state := r.2.2, iterators := q.iterators.set i r.2.1 })
  | .ret i =>
    match q.iterators.get? i with
    | none => (.unit, q)
    | some ph =>
      let r := nextValueReturn ph q.state
      (.done, { state := r.2, iterators := q.iterators.set i r.1 })
  | .set =>
    let r := notAllowed q.state
    (Outcome.ofExcept r.1, { q with state := r.2 })
  | .setPrototypeOf =>
    let r := notAllowed q.state
    (Outcome.ofExcept r.1, { q with state := r.2 })

/-- A series of operations, with the outcome of each. -/
def run {α : Type} (p : Producer α) : List Op → Sequence α → List (Outcome α) × Sequence α
  | [], q => ([], q)
  | op :: ops, q =>
    let r := perform p op q
    let rest := run p ops r.2
    (r.1 :: rest.1, rest.2)

/-- The result of a `for...of` loop that ran to its end. -/
structure Iteration (α : Type) where
  delivered : List (Value α)
  error : Option Error
  state : State α
deriving DecidableEq, Repr

/-- The loop `for (let v of sequence) received.push(v)` (or `Array.from(sequence)`)
from an iterator at phase `ph`: `next()` until the iterator is done or throws.
`none` when `fuel` rounds did not reach the end. -/
def forOf {α : Type} (p : Producer α) : Nat → Phase → State α → Option (Iteration α)
  | 0, _, _ => none
  | fuel + 1, ph, s =>
    match nextValueNext p ph s with
    | (.yield v, ph1, s1) =>
      (forOf p fuel ph1 s1).map fun r => { r with delivered := v :: r.delivered }
    | (.done, _, s1) => some { delivered := [], error := none, state := s1 }
    | (.throw e, _, s1) => some { delivered := [], error := some e, state := s1 }

/-- A full iteration of the sequence with a new iterator. -/
def iterateAll {α : Type} (p : Producer α) (fuel : Nat) (s : State α) : Option (Iteration α) :=
  forOf p fuel .start s

/-! ## Finite producers -/

/-- The four ways to hand over the finite list of elements `[e0, ..., en]`. -/
inductive Shape where
  | array
  | arrayLike
  | iterable
  | generatorFunction
deriving DecidableEq, Repr

/-- The producer of shape `sh` with elements `xs`. -/
def finiteProducer {α : Type} (sh : Shape) (xs : List (Value α)) : Producer α :=
  match sh with
  | .array => ofArray xs
  | .arrayLike => ofArrayLike xs
  | .iterable => ofIterable (listScript xs)
  | .generatorFunction => ofGeneratorFunction (listScript xs)

/-! ## Observations on a series of operations -/

/-- The outcomes, in order, of the operations equal to `op` within the series `ops`
whose outcomes are `out`. -/
def answers {α : Type} (op : Op) : List Op → List (Outcome α) → List (Outcome α)
  | o :: ops, r :: out => if o = op then r :: answers op ops out else answers op ops out
  | _, _ => []

/-- The producer `p` is classified without an exception and the loop of `generator`
replies `f k` at its `k`-th round. -/
def Presents {α : Type} (p : Producer α) (f : Nat → Pull α) : Prop :=
  (∃ o, producerIterator p = .ok o) ∧ ∀ k, loopPull p k = f k

/-- The states a sequence over the replies `f` goes through while `d` values have been
delivered by calls and iteration steps: nothing pulled yet; first value read but not
delivered; `d` values pulled and delivered, with `generator` completed only where `f`
ends. -/
def At {α : Type} (f : Nat → Pull α) (d : Nat) (s : State α) : Prop :=
  (d = 0 ∧ s.firstValueTaken = false ∧ s.firstValueSent = false ∧
    s.generator = .suspendedStart ∧ s.pulled = 0) ∨
  (d = 0 ∧ s.firstValueTaken = true ∧ s.firstValueSent = false ∧
    s.generator = .suspendedYield ∧ s.pulled = 1 ∧ f 0 = .yield s.firstValue) ∨
  (1 ≤ d ∧ s.firstValueTaken = true ∧ s.firstValueSent = true ∧
    f 0 = .yield s.firstValue ∧ s.pulled = d ∧
    (s.generator = .suspendedYield ∨ (s.generator = .completed ∧ f d = .done)))

/-- Once the first value is pulled it is cached as `e0`; before that the state is the
initial one and no iterator has started. -/
def FirstCached {α : Type} (p : Producer α) (e0 : Value α) (q : Sequence α) : Prop :=
  (q.state = (createSequence p).state ∧ ∀ ph ∈ q.iterators, ph = .start ∨ ph = .finished) ∨
  (q.state.firstValueTaken = true ∧ q.state.firstValue = e0)

/-- An object that is array-like (`{0: 0, 1: 1, length: 2}`) and also carries its own
iterator, which delivers `7` and `8`. -/
def arrayLikeWithIterator : Producer Nat where
  kind := .object
  iterator := some (listScript [.val 7, .val 8])
  prototype := .notObject
  invocation := .throws "TypeError"
  length := some (.fits 2)
  item := fun k => .val k
  result := fun _ => .ok .undefined

/-! ## The classification as the specification words it -/

/-- The producer variants of the specification (section 3). -/
inductive Variant where
  | customIterable
  | generatorFunction
  | fixedCollectionArray
  | fixedCollectionArrayLike
  | repeatableCallable
  | unsupported
deriving DecidableEq, Repr

/-- The variant of a producer by the priority order of the specification: custom
iterable (a value exposing an iterator); then generator function (a callable, detected
by an iterable capability on its prototype); then array; then array-like object with
a numeric length; then repeatable callable. -/
def specVariant {α : Type} (p : Producer α) : Variant :=
  if p.iterator.isSome then .customIterable
  else if p.kind = .function ∧ p.prototype = .iterable then .generatorFunction
  else if p.kind = .array then .fixedCollectionArray
  else if p.kind = .object ∧ p.length.isSome then .fixedCollectionArrayLike
  else if p.kind = .function then .repeatableCallable
  else .unsupported

/-- The indexed elements of a fixed collection, up to its length. -/
def indexed {α : Type} (p : Producer α) : List (Value α) :=
  match p.length with
  | some (.fits n) => (List.range n).map p.item
  | _ => []

/-- The lazy source the specification derives from each variant: the replies of the
iterator, of the iterable an invocation yields, the indexed elements up to the length,
the results of the successive invocations, or nothing. -/
def specLazySource {α : Type} (p : Producer α) (k : Nat) : Pull α :=
  match specVariant p with
  | .customIterable =>
    match p.iterator with
    | some it => it k
    | none => .done
  | .generatorFunction =>
    match p.invocation with
    | .returns _ replies => replies k
    | .throws e => .throw e
  | .fixedCollectionArray => listScript (indexed p) k
  | .fixedCollectionArrayLike => listScript (indexed p) k
  | .repeatableCallable =>
    match p.result k with
    | .ok v => .yield v
    | .error e => .throw e
  | .unsupported => .done

/-! ## Reachable states -/

/-- The number of producer elements handed to consumers so far: nothing while the first
value is not sent, then every value `generator` has yielded. -/
def delivered {α : Type} (s : State α) : Nat :=
  if s.firstValueSent then s.pulled else 0

/-- The flags of the first-value cache fit together: a sent first value was taken, and
an iterator suspended at a `yield` exists only once the first value is taken and sent. -/
def Coherent {α : Type} (q : Sequence α) : Prop :=
  (q.state.firstValueSent = true → q.state.firstValueTaken = true) ∧
  ∀ ph ∈ q.iterators, ph = .start ∨ ph = .finished ∨
    (q.state.firstValueTaken = true ∧ q.state.firstValueSent = true)

/-- The first value is taken and sent and `generator` is completed. -/
def Closed {α : Type} (s : State α) : Prop :=
  s.firstValueTaken = true ∧ s.firstValueSent = true ∧ s.generator = .completed

/-- Whether an operation is the early exit of an iteration. -/
def Op.isExit : Op → Bool
  | .ret _ => true
  | _ => false

/-- Whether an operation asks for the next value of the traversal: a call or an
iterator step. -/
def Op.isStep : Op → Bool
  | .call => true
  | .next _ => true
  | _ => false

/-- Whether an outcome is a value. -/
def Outcome.isValue {α : Type} : Outcome α → Bool
  | .value _ => true
  | _ => false

/-- The number of calls and iterator steps, within the series `ops` whose outcomes
are `out`, that returned or delivered a value. -/
def completedSteps {α : Type} : List Op → List (Outcome α) → Nat
  | op :: ops, o :: out => (if op.isStep && o.isValue then 1 else 0) + completedSteps ops out
  | _, _ => 0

/-- Whether an operation is an access: a call, a first-value read or an iterator step. -/
def Op.isAccess : Op → Bool
  | .call => true
  | .value => true
  | .next _ => true
  | _ => false

/-- Whether an operation asks `generator` for a value in the state of `q`: a call or
the first step of an iterator, unless the first value is taken and not sent yet; a
first-value read while the first value is not taken; a later step of an iterator that
has passed the first value on. -/
def pulls {α : Type} (op : Op) (q : Sequence α) : Bool :=
  match op with
  | .call => !q.state.firstValueTaken || q.state.firstValueSent
  | .value => !q.state.firstValueTaken
  | .next i =>
    match q.iterators.get? i with
    | some .start => !q.state.firstValueTaken || q.state.firstValueSent
    | some .yield65 => q.state.firstValueSent
    | some .yield70 => true
    | some .yield74 => true
    | _ => false
  | _ => false

/-- A function that throws at its first invocation and returns `1, 2, ...` afterwards. -/
def failsOnce : Producer Nat :=
  ofFunction fun k => if k = 0 then .error "boom" else .ok (.val k)

/-- What a repeated access answers after a failed one: an iterator reports its end, a
call or a first-value read returns `undefined`. -/
def retryOutcome {α : Type} : Op → Outcome α
  | .next _ => .done
  | _ => .value .undefined

/-- The part of the state that `generator` owns agrees in `s1` and `s2`. -/
def SameCore {α : Type} (s1 s2 : State α) : Prop :=
  s1.generator = s2.generator ∧ s1.pulled = s2.pulled ∧ s1.invoked = s2.invoked

/-- For a generator function: either nothing was pulled yet (`generator` not started,
no invocation, first value not taken, no iterator under way), or `generator` has
started and the function was invoked once. -/
def LazyOnce {α : Type} (q : Sequence α) : Prop :=
  (q.state.generator = .suspendedStart ∧ q.state.invoked = 0 ∧
    q.state.firstValueTaken = false ∧ ∀ ph ∈ q.iterators, ph = .start ∨ ph = .finished) ∨
  (q.state.generator ≠ .suspendedStart ∧ q.state.invoked = 1)

/-- The producer `null` (or `undefined`). -/
def nullProducer : Producer Nat where
  kind := .nullish
  iterator := none
  prototype := .notObject
  invocation := .throws "TypeError"
  length := none
  item := fun _ => .undefined
  result := fun _ => .ok .undefined

/-- An object without iterator, with the given `prototype` and `length` properties,
whose element at index `k` is `k`: `{prototype: ..., length: ..., 0: 0, 1: 1, ...}`. -/
def objectWith (prototype : Prototype) (length : Option Length) : Producer Nat where
  kind := .object
  iterator := none
  prototype := prototype
  invocation := .throws "TypeError"
  length := length
  item := fun k => .val k
  result := fun _ => .ok .undefined

/-- The producer `{}`: an object with no iterator and no `length`. -/
def plainObject : Producer Nat where
  kind := .object
  iterator := none
  prototype := .notObject
  invocation := .throws "TypeError"
  length := none
  item := fun _ => .undefined
  result := fun _ => .ok .undefined

/-- A function that returns `0` at its first invocation, throws at the second and
returns `2, 3, ...` afterwards. -/
def failsSecond : Producer Nat :=
  ofFunction fun k => if k = 1 then .error "boom" else .ok (.val k)

/-- A function that counts its invocations: it returns `0, 1, 2, ...`. -/
def counter : Producer Nat :=
  ofFunction fun k => .ok (.val k)

/-- The function `counter` after the assignment `counter.prototype = null`. -/
def nullPrototypeCounter : Producer Nat :=
  { counter with prototype := .null }

/-- The first value is taken and sent and `generator` has nothing more to yield. -/
def Drained {α : Type} (p : Producer α) (s : State α) : Prop :=
  s.firstValueTaken = true ∧ s.firstValueSent = true ∧ (generatorNext p s).1 = .done

/-- The states of a sequence over the elements `xs` after any series of operations:
at some position `d` of the traversal, every iterator under way having sent the first
value; or closed by an early exit. -/
def Traversal {α : Type} (xs : List (Value α)) (q : Sequence α) : Prop :=
  (∃ d, d ≤ xs.length ∧ At (listScript xs) d q.state ∧
    ∀ ph ∈ q.iterators, ph = .start ∨ ph = .finished ∨ q.state.firstValueSent = true) ∨
  Closed q.state


variable {α : Type}

/-! ## Lemmas on the generator -/

theorem range_map_getD (xs : List (Value α)) (d : Value α) :
    (List.range xs.length).map (fun k => xs.getD k d) = xs := by
  apply List.ext_getElem
  · simp
  · intro k h1 h2
    simp [List.getD, List.getElem?_eq_getElem h2]

/-- A `generator.next()` leaves the first-value cache and its two flags as they are. -/
theorem generatorNext_frame (p : Producer α) (s : State α) :
    (generatorNext p s).2.firstValue = s.firstValue ∧
    (generatorNext p s).2.firstValueTaken = s.firstValueTaken ∧
    (generatorNext p s).2.firstValueSent = s.firstValueSent := by
  have hr : ∀ t : State α, (generatorResume p t).2.firstValue = t.firstValue ∧
      (generatorResume p t).2.firstValueTaken = t.firstValueTaken ∧
      (generatorResume p t).2.firstValueSent = t.firstValueSent := by
    intro t
    unfold generatorResume
    dsimp only; split <;> (split <;> simp)
  unfold generatorNext
  split
  · simp
  · exact hr s
  · by_cases hi : invokesGenerator p = true
    · simp only [hi, if_true]
      split
      · simp
      · exact hr _
    · simp only [hi]
      split
      · simp
      · exact hr _

theorem presents_finiteProducer (sh : Shape) (xs : List (Value α)) :
    Presents (finiteProducer sh xs) (listScript xs) := by
  cases sh
  · exact ⟨⟨_, rfl⟩, fun _ => rfl⟩
  · refine ⟨⟨_, rfl⟩, fun k => ?_⟩
    show listScript ((List.range xs.length).map (fun k => xs.getD k .undefined)) k = _
    rw [range_map_getD]
  · exact ⟨⟨_, rfl⟩, fun _ => rfl⟩
  · exact ⟨⟨_, rfl⟩, fun _ => rfl⟩

theorem presents_ofFunction (v : Nat → Value α) :
    Presents (ofFunction fun k => .ok (v k)) (fun k => .yield (v k)) :=
  ⟨⟨_, rfl⟩, fun _ => rfl⟩

theorem generatorNext_completed (p : Producer α) (s : State α)
    (hs : s.generator = .completed) : generatorNext p s = (.done, s) := by
  simp [generatorNext, hs]

theorem generatorNext_yield {p : Producer α} {f : Nat → Pull α} (hp : Presents p f)
    (s : State α) (hs : s.generator ≠ .completed) (v : Value α)
    (hv : f s.pulled = .yield v) :
    ∃ n, generatorNext p s =
      (.yield v, { s with generator := .suspendedYield, pulled := s.pulled + 1, invoked := n }) := by
  obtain ⟨⟨o, ho⟩, hl⟩ := hp
  have hl1 : loopPull p s.pulled = .yield v := by rw [hl, hv]
  rcases s with ⟨fv, tk, st, g, pl, inv⟩
  cases g
  · by_cases hi : invokesGenerator p = true <;> by_cases hc : callsProducer p = true <;>
      simp [generatorNext, generatorResume, ho, hc, hl1, hi]
  · by_cases hc : callsProducer p = true <;>
      simp [generatorNext, generatorResume, hc, hl1]
  · exact absurd rfl hs

theorem generatorNext_done {p : Producer α} {f : Nat → Pull α} (hp : Presents p f)
    (s : State α) (hs : s.generator ≠ .completed) (hv : f s.pulled = .done) :
    ∃ n, generatorNext p s = (.done, { s with generator := .completed, invoked := n }) := by
  obtain ⟨⟨o, ho⟩, hl⟩ := hp
  have hl1 : loopPull p s.pulled = .done := by rw [hl, hv]
  rcases s with ⟨fv, tk, st, g, pl, inv⟩
  cases g
  · by_cases hi : invokesGenerator p = true <;> by_cases hc : callsProducer p = true <;>
      simp [generatorNext, generatorResume, ho, hc, hl1, hi]
  · by_cases hc : callsProducer p = true <;>
      simp [generatorNext, generatorResume, hc, hl1]
  · exact absurd rfl hs

/-! ## The traversal of a producer -/

theorem at_createSequence (p : Producer α) (f : Nat → Pull α) :
    At f 0 (createSequence p).state :=
  Or.inl ⟨rfl, rfl, rfl, rfl, rfl⟩

/-- Reading the first value at any point of the traversal gives the first element and
keeps the position. -/
theorem getFirstValue_at {p : Producer α} {f : Nat → Pull α} (hp : Presents p f)
    {e0 : Value α} (he : f 0 = .yield e0) {d : Nat} {s : State α} (h : At f d s) :
    ∃ s1, getFirstValue p s = (.ok e0, s1) ∧ At f d s1 ∧
      s1.firstValueSent = s.firstValueSent := by
  rcases h with ⟨hd, h1, h2, h3, h4⟩ | ⟨hd, h1, h2, h3, h4, h5⟩ | ⟨hd, h1, h2, h5, h4, h3⟩
  · obtain ⟨n, hg⟩ := generatorNext_yield hp s (by simp [h3]) e0 (by rw [h4]; exact he)
    have hN : getFirstValue p s = (.ok e0,
        { s with firstValue := e0, firstValueTaken := true, generator := .suspendedYield,
                 pulled := s.pulled + 1, invoked := n }) := by
      simp [getFirstValue, h1, hg]
    exact ⟨_, hN, Or.inr (Or.inl ⟨hd, rfl, h2, rfl, by simp [h4], he⟩), rfl⟩
  · have : s.firstValue = e0 := by rw [he] at h5; exact (Pull.yield.inj h5).symm
    exact ⟨s, by simp [getFirstValue, h1, this], Or.inr (Or.inl ⟨hd, h1, h2, h3, h4, h5⟩), rfl⟩
  · have : s.firstValue = e0 := by rw [he] at h5; exact (Pull.yield.inj h5).symm
    exact ⟨s, by simp [getFirstValue, h1, this], Or.inr (Or.inr ⟨hd, h1, h2, h5, h4, h3⟩), rfl⟩

/-- One `next()` of an iterator while elements remain: it delivers the element at the
position and moves the position by one. -/
theorem nextValueNext_at_yield {p : Producer α} {f : Nat → Pull α} (hp : Presents p f)
    {d : Nat} {s : State α} (h : At f d s) {v : Value α} (hv : f d = .yield v)
    {ph : Phase} (hph : ph = .start ∨ s.firstValueSent = true) (hfin : ph ≠ .finished) :
    ∃ ph1 s1, nextValueNext p ph s = (.yield v, ph1, s1) ∧ At f (d + 1) s1 ∧
      s1.firstValueSent = true ∧ ph1 ≠ .finished := by
  rcases h with ⟨hd, h1, h2, h3, h4⟩ | ⟨hd, h1, h2, h3, h4, h5⟩ | ⟨hd, h1, h2, h5, h4, h3⟩
  · subst hd
    have hs : ph = .start := by rcases hph with h | h; exact h; simp [h2] at h
    subst hs
    obtain ⟨n, hg⟩ := generatorNext_yield hp s (by simp [h3]) v (by rw [h4]; exact hv)
    have hN : nextValueNext p .start s = (.yield v, .yield65,
        { s with firstValue := v, firstValueTaken := true, firstValueSent := true,
                 generator := .suspendedYield, pulled := s.pulled + 1, invoked := n }) := by
      simp [nextValueNext, getFirstValue, h1, hg]
    exact ⟨_, _, hN, Or.inr (Or.inr ⟨le_refl _, rfl, rfl, hv, by simp [h4], Or.inl rfl⟩), rfl,
      by simp⟩
  · subst hd
    have hs : ph = .start := by rcases hph with h | h; exact h; simp [h2] at h
    subst hs
    have hfv : s.firstValue = v := by rw [hv] at h5; exact (Pull.yield.inj h5).symm
    have hN : nextValueNext p .start s = (.yield v, .yield70,
        { s with firstValueSent := true }) := by
      simp [nextValueNext, nextValueFrom67, h1, h2, hfv]
    exact ⟨_, _, hN, Or.inr (Or.inr ⟨le_refl _, h1, rfl, h5, h4, Or.inl h3⟩), rfl, by simp⟩
  · have hg3 : s.generator = .suspendedYield := by
      rcases h3 with h | ⟨_, h⟩
      · exact h
      · rw [hv] at h; cases h
    obtain ⟨n, hg⟩ := generatorNext_yield hp s (by simp [hg3]) v (by rw [h4]; exact hv)
    have hloop : nextValueLoop p s = (.yield v, .yield74,
        { s with generator := .suspendedYield, pulled := s.pulled + 1, invoked := n }) := by
      simp [nextValueLoop, hg]
    have hN : nextValueNext p ph s = (.yield v, .yield74,
        { s with generator := .suspendedYield, pulled := s.pulled + 1, invoked := n }) := by
      cases ph <;> simp [nextValueNext, nextValueFrom67, h1, h2, hloop] at hfin ⊢
    exact ⟨_, _, hN, Or.inr (Or.inr ⟨by omega, h1, h2, h5, by simp [h4], Or.inl rfl⟩),
      h2, by simp⟩

/-- One `next()` of an iterator where the elements end, after at least one value was
delivered: it reports the end. -/
theorem nextValueNext_at_done {p : Producer α} {f : Nat → Pull α} (hp : Presents p f)
    {d : Nat} (hd : 1 ≤ d) (hv : f d = .done) {s : State α} (h : At f d s) (ph : Phase) :
    ∃ s1, nextValueNext p ph s = (.done, .finished, s1) ∧ At f d s1 ∧
      s1.firstValueSent = true := by
  rcases h with ⟨hd0, _⟩ | ⟨hd0, _⟩ | ⟨_, h1, h2, h5, h4, h3⟩
  · omega
  · omega
  · have hloop : ∃ s1, nextValueLoop p s = (.done, .finished, s1) ∧ At f d s1 ∧
        s1.firstValueSent = true := by
      rcases h3 with h3 | ⟨h3, _⟩
      · obtain ⟨n, hg⟩ := generatorNext_done hp s (by simp [h3]) (by rw [h4]; exact hv)
        have hN : nextValueLoop p s = (.done, .finished,
            { s with generator := .completed, invoked := n }) := by
          simp [nextValueLoop, hg]
        exact ⟨_, hN, Or.inr (Or.inr ⟨hd, h1, h2, h5, h4, Or.inr ⟨rfl, hv⟩⟩), h2⟩
      · refine ⟨s, by simp [nextValueLoop, generatorNext_completed p s h3], ?_, h2⟩
        exact Or.inr (Or.inr ⟨hd, h1, h2, h5, h4, Or.inr ⟨h3, hv⟩⟩)
    obtain ⟨s1, hl1, hat, hsent⟩ := hloop
    cases ph
    · exact ⟨s1, by simp [nextValueNext, nextValueFrom67, h1, h2, hl1], hat, hsent⟩
    · exact ⟨s1, by simp [nextValueNext, nextValueFrom67, h1, h2, hl1], hat, hsent⟩
    · exact ⟨s1, by simp [nextValueNext, nextValueFrom67, h1, h2, hl1], hat, hsent⟩
    · exact ⟨s1, by simp [nextValueNext, nextValueFrom67, h1, h2, hl1], hat, hsent⟩
    · exact ⟨s, by simp [nextValueNext], Or.inr (Or.inr ⟨hd, h1, h2, h5, h4, h3⟩), h2⟩

/-- A call while elements remain returns the element at the position. -/
theorem apply_at_yield {p : Producer α} {f : Nat → Pull α} (hp : Presents p f)
    {d : Nat} {s : State α} (h : At f d s) {v : Value α} (hv : f d = .yield v) :
    ∃ s1, apply p s = (.ok v, s1) ∧ At f (d + 1) s1 := by
  obtain ⟨ph1, s1, hN, hat, -, -⟩ :=
    nextValueNext_at_yield hp h hv (Or.inl rfl) (by simp)
  exact ⟨s1, by simp [apply, hN], hat⟩

/-- The full iteration from position `d` of the elements `xs` delivers the elements
from `d` on, and leaves the sequence at the end of `xs`. -/
theorem forOf_at {p : Producer α} {xs : List (Value α)} (hp : Presents p (listScript xs))
    (hne : xs ≠ []) (fuel : Nat) :
    ∀ (d : Nat) (s : State α) (ph : Phase), At (listScript xs) d s → d ≤ xs.length →
      xs.length - d < fuel → (ph = .start ∨ s.firstValueSent = true) → ph ≠ .finished →
      ∃ s1, forOf p fuel ph s = some { delivered := xs.drop d, error := none, state := s1 } ∧
        At (listScript xs) xs.length s1 ∧ s1.firstValueSent = true := by
  induction fuel with
  | zero => intro d s ph _ _ h; omega
  | succ fuel ih =>
    intro d s ph hat hd hfuel hph hfin
    have hpos : 0 < xs.length := List.length_pos.mpr hne
    by_cases hlt : d < xs.length
    · have hv : listScript xs d = .yield xs[d] := by
        simp [listScript, List.getElem?_eq_getElem hlt]
      obtain ⟨ph1, s1, hN, hat1, hs1, hf1⟩ := nextValueNext_at_yield hp hat hv hph hfin
      obtain ⟨s2, hF, hat2, hs2⟩ := ih (d + 1) s1 ph1 hat1 hlt (by omega) (Or.inr hs1) hf1
      refine ⟨s2, ?_, hat2, hs2⟩
      rw [forOf, hN]
      simp only [hF, Option.map_some']
      rw [List.drop_eq_getElem_cons hlt]
    · have hd' : d = xs.length := by omega
      subst hd'
      have hv : listScript xs xs.length = .done := by simp [listScript]
      obtain ⟨s1, hN, hat1, hs1⟩ := nextValueNext_at_done hp hpos hv hat ph
      exact ⟨s1, by rw [forOf, hN]; simp, hat1, hs1⟩

/-! ## Series of operations -/

theorem answers_of_not_mem (op : Op) (ops : List Op) (h : op ∉ ops) (out : List (Outcome α)) :
    answers op ops out = [] := by
  induction ops generalizing out with
  | nil => cases out <;> rfl
  | cons o ops ih =>
    cases out with
    | nil => rfl
    | cons r out =>
      have hne : ¬ o = op := fun h1 => h (by simp [h1])
      have hmem : op ∉ ops := fun h1 => h (by simp [h1])
      simp [answers, hne, ih hmem]

theorem answers_cons_ne {op o : Op} (h : o ≠ op) (ops : List Op) (r : Outcome α)
    (out : List (Outcome α)) : answers op (o :: ops) (r :: out) = answers op ops out := by
  simp [answers, h]

theorem run_append (p : Producer α) (a b : List Op) (q : Sequence α) :
    run p (a ++ b) q =
      ((run p a q).1 ++ (run p b (run p a q).2).1, (run p b (run p a q).2).2) := by
  induction a generalizing q with
  | nil => simp [run]
  | cons o a ih => simp [run, ih]

theorem answers_run_append (p : Producer α) (op : Op) (a b : List Op) (q : Sequence α) :
    answers op (a ++ b) (run p (a ++ b) q).1 =
      answers op a (run p a q).1 ++ answers op b (run p b (run p a q).2).1 := by
  induction a generalizing q with
  | nil => simp [run, answers]
  | cons o a ih =>
    by_cases h : o = op <;> simp [run, answers, h, ih]

theorem range_map_getD_take (xs : List (Value α)) (d : Value α) (k : Nat)
    (hk : k ≤ xs.length) : (List.range k).map (fun i => xs.getD i d) = xs.take k := by
  apply List.ext_getElem
  · simp [hk]
  · intro i h1 h2
    have hi : i < xs.length := by simp at h1; omega
    simp [List.getD, List.getElem?_eq_getElem hi]

/-- A series of calls and first-value reads from position `d`: the calls return the
replies from `d` on, every read returns the first element. -/
theorem run_calls_reads {p : Producer α} {f : Nat → Pull α} (hp : Presents p f)
    {e0 : Value α} (he : f 0 = .yield e0) (g : Nat → Value α) :
    ∀ (ops : List Op) (d : Nat) (q : Sequence α), At f d q.state →
      (∀ op ∈ ops, op = .call ∨ op = .value) →
      (∀ i, d ≤ i → i < d + ops.count .call → f i = .yield (g i)) →
      answers .call ops (run p ops q).1 =
          (List.range (ops.count .call)).map (fun i => .value (g (d + i))) ∧
        answers .value ops (run p ops q).1 =
          List.replicate (ops.count .value) (.value e0) ∧
        At f (d + ops.count .call) (run p ops q).2.state ∧
        (run p ops q).2.iterators = q.iterators := by
  intro ops
  induction ops with
  | nil => intro d q hat _ _; simpa [run, answers] using hat
  | cons o ops ih =>
    intro d q hat hops hf
    have hrest : ∀ op ∈ ops, op = .call ∨ op = .value := fun op h => hops op (by simp [h])
    rcases hops o (by simp) with ho | ho
    · subst ho
      have hfd : f d = .yield (g d) := hf d (le_refl _) (by simp)
      obtain ⟨s1, hA, hat1⟩ := apply_at_yield hp hat hfd
      have hf1 : ∀ i, d + 1 ≤ i → i < d + 1 + ops.count .call → f i = .yield (g i) := by
        intro i h1 h2
        exact hf i (by omega) (by simp; omega)
      obtain ⟨c1, c2, c3, c4⟩ := ih (d + 1) { q with state := s1 } hat1 hrest hf1
      have hP : perform p .call q = (.value (g d), { q with state := s1 }) := by
        simp [perform, hA, Outcome.ofExcept]
      refine ⟨?_, ?_, ?_, ?_⟩
      · simp only [run, hP, answers, if_true, List.count_cons_self, c1]
        rw [List.range_succ_eq_map]
        simp [Function.comp_def, Nat.add_assoc, Nat.add_comm 1]
      · simpa [run, hP, answers] using c2
      · simpa [run, hP, Nat.add_assoc, Nat.add_comm 1] using c3
      · simpa [run, hP] using c4
    · subst ho
      obtain ⟨s1, hG, hat1, -⟩ := getFirstValue_at hp he hat
      have hf1 : ∀ i, d ≤ i → i < d + ops.count .call → f i = .yield (g i) := by
        intro i h1 h2
        exact hf i h1 (by simpa using h2)
      obtain ⟨c1, c2, c3, c4⟩ := ih d { q with state := s1 } hat1 hrest hf1
      have hP : perform p .value q = (.value e0, { q with state := s1 }) := by
        simp [perform, hG, Outcome.ofExcept]
      refine ⟨?_, ?_, ?_, ?_⟩
      · simpa [run, hP, answers] using c1
      · simp [run, hP, answers, c2, List.replicate_succ]
      · simpa [run, hP] using c3
      · simpa [run, hP] using c4

theorem listScript_yield {xs : List (Value α)} {d : Nat} (h : d < xs.length) :
    listScript xs d = .yield (xs.getD d .undefined) := by
  simp [listScript, List.getD, List.getElem?_eq_getElem h]

theorem listScript_head {xs : List (Value α)} {e0 : Value α} (he : xs.head? = some e0) :
    listScript xs 0 = .yield e0 := by
  cases xs with
  | nil => simp at he
  | cons x xs => simp at he; simp [listScript, he]

/-- The steps of one iterator, mixed with first-value reads, from position `d` of the
elements `xs` until the iterator reports the end: the steps deliver the elements from
`d` on and then the end, every read returns the first element. -/
theorem run_steps_reads {p : Producer α} {xs : List (Value α)}
    (hp : Presents p (listScript xs)) {e0 : Value α} (he : xs.head? = some e0) :
    ∀ (ops : List Op) (d : Nat) (q : Sequence α) (ph : Phase),
      At (listScript xs) d q.state → q.iterators = [ph] →
      (ph = .start ∨ q.state.firstValueSent = true) → ph ≠ .finished → d ≤ xs.length →
      (∀ op ∈ ops, op = .next 0 ∨ op = .value) →
      ops.count (.next 0) = xs.length - d + 1 →
      answers (.next 0) ops (run p ops q).1 = (xs.drop d).map .value ++ [.done] ∧
        answers .value ops (run p ops q).1 =
          List.replicate (ops.count .value) (.value e0) := by
  have hne : xs ≠ [] := by intro h; simp [h] at he
  have hpos : 0 < xs.length := List.length_pos.mpr hne
  have he0 := listScript_head he
  intro ops
  induction ops with
  | nil => intro d q ph _ _ _ _ _ _ hc; simp at hc
  | cons o ops ih =>
    intro d q ph hat hit hph hfin hd hops hc
    have hrest : ∀ op ∈ ops, op = .next 0 ∨ op = .value := fun op h => hops op (by simp [h])
    rcases hops o (by simp) with ho | ho
    · subst ho
      simp only [List.count_cons_self] at hc
      by_cases hlt : d < xs.length
      · have hv : listScript xs d = .yield xs[d] := by
          simp [listScript, List.getElem?_eq_getElem hlt]
        obtain ⟨ph1, s1, hN, hat1, hs1, hf1⟩ := nextValueNext_at_yield hp hat hv hph hfin
        have hP : perform p (.next 0) q = (.value xs[d], { state := s1, iterators := [ph1] }) := by
          simp [perform, hit, hN, Outcome.ofPull]
        obtain ⟨c1, c2⟩ := ih (d + 1) { state := s1, iterators := [ph1] } ph1 hat1 rfl
          (Or.inr hs1) hf1 hlt hrest (by omega)
        refine ⟨?_, ?_⟩
        · simp only [run, hP, answers, if_true, c1]
          rw [List.drop_eq_getElem_cons hlt]
          rfl
        · simpa [run, hP, answers] using c2
      · have hd' : d = xs.length := by omega
        subst hd'
        have hv : listScript xs xs.length = .done := by simp [listScript]
        obtain ⟨s1, hN, hat1, hs1⟩ := nextValueNext_at_done hp hpos hv hat ph
        have hP : perform p (.next 0) q =
            (.done, { state := s1, iterators := [Phase.finished] }) := by
          simp [perform, hit, hN, Outcome.ofPull]
        have hzero : ops.count (.next 0) = 0 := by omega
        have hnot : Op.next 0 ∉ ops := List.count_eq_zero.mp hzero
        have hreads : ∀ op ∈ ops, op = .call ∨ op = .value := by
          intro op hop
          rcases hrest op hop with h | h
          · exact absurd (h ▸ hop) hnot
          · exact Or.inr h
        have hcalls : ops.count .call = 0 := by
          apply List.count_eq_zero.mpr
          intro hmem
          rcases hrest _ hmem with h | h <;> cases h
        obtain ⟨-, c2, -, -⟩ := run_calls_reads hp he0 (fun _ => .undefined) ops xs.length
          { state := s1, iterators := [Phase.finished] } hat1 hreads
          (by intro i h1 h2; omega)
        refine ⟨?_, ?_⟩
        · simp [run, hP, answers, answers_of_not_mem _ _ hnot]
        · simpa [run, hP, answers] using c2
    · subst ho
      obtain ⟨s1, hG, hat1, hsent⟩ := getFirstValue_at hp he0 hat
      have hP : perform p .value q = (.value e0, { q with state := s1 }) := by
        simp [perform, hG, Outcome.ofExcept]
      have hc1 : ops.count (.next 0) = xs.length - d + 1 := by simpa using hc
      obtain ⟨c1, c2⟩ := ih d { q with state := s1 } ph hat1 hit
        (by rcases hph with h | h; exact Or.inl h; exact Or.inr (by simpa [hsent] using h))
        hfin hd hrest hc1
      refine ⟨?_, ?_⟩
      · simpa [run, hP, answers] using c1
      · simp [run, hP, answers, c2, List.replicate_succ]

/-! ## The claims -/

/-- C1: for every finite non-empty producer with elements `xs`, given as an array, an
array-like object, a custom iterable or a generator function, the full iteration of a
freshly created sequence ends (with any fuel above the number of elements) and delivers
exactly `xs`, in order, each element once, without an exception. -/
theorem full_iteration_delivers_elements (sh : Shape) (xs : List (Value α)) (hne : xs ≠ [])
    (fuel : Nat) (hfuel : xs.length < fuel) :
    (iterateAll (finiteProducer sh xs) fuel (createSequence (finiteProducer sh xs)).state).map
      (fun r => (r.delivered, r.error)) = some (xs, none) := by
  obtain ⟨s1, h, -, -⟩ := forOf_at (presents_finiteProducer sh xs) hne fuel 0 _ .start
    (at_createSequence (finiteProducer sh xs) _) (Nat.zero_le _) (by omega) (Or.inl rfl)
    (by simp)
  simp [iterateAll, h]

theorem full_iteration_delivers_elements_witness :
    [Value.val 1, Value.val 2, Value.val 3] ≠ [] ∧ 3 < 4 ∧
    (iterateAll (finiteProducer .generatorFunction [Value.val 1, Value.val 2, Value.val 3]) 4
        (createSequence
          (finiteProducer .generatorFunction [Value.val 1, Value.val 2, Value.val 3])).state).map
      (fun r => (r.delivered, r.error)) = some ([Value.val 1, Value.val 2, Value.val 3], none) :=
  ⟨by decide, by decide,
    full_iteration_delivers_elements .generatorFunction [.val 1, .val 2, .val 3] (by decide) 4
      (by decide)⟩

/-- C2: for every finite non-empty producer with elements `xs`, first element `e0`, and
every number `m` of first-value reads on the fresh sequence (in particular `m >= 1`),
each read returns `e0`, and the full iteration that follows still delivers all of `xs`. -/
theorem first_value_reads_do_not_consume (sh : Shape) (xs : List (Value α)) (e0 : Value α)
    (he : xs.head? = some e0) (m : Nat) (fuel : Nat) (hfuel : xs.length < fuel) :
    (run (finiteProducer sh xs) (List.replicate m Op.value)
        (createSequence (finiteProducer sh xs))).1 = List.replicate m (.value e0) ∧
    (iterateAll (finiteProducer sh xs) fuel
        (run (finiteProducer sh xs) (List.replicate m Op.value)
          (createSequence (finiteProducer sh xs))).2.state).map
      (fun r => (r.delivered, r.error)) = some (xs, none) := by
  have hp := presents_finiteProducer sh xs
  have hne : xs ≠ [] := by intro h; simp [h] at he
  have he0 := listScript_head he
  have key : ∀ (m : Nat) (q : Sequence α), At (listScript xs) 0 q.state →
      (run (finiteProducer sh xs) (List.replicate m Op.value) q).1 =
          List.replicate m (.value e0) ∧
        At (listScript xs) 0
          (run (finiteProducer sh xs) (List.replicate m Op.value) q).2.state := by
    intro m
    induction m with
    | zero => intro q hat; exact ⟨rfl, hat⟩
    | succ m ih =>
      intro q hat
      obtain ⟨s1, hG, hat1, -⟩ := getFirstValue_at hp he0 hat
      have hP : perform (finiteProducer sh xs) .value q = (.value e0, { q with state := s1 }) := by
        simp [perform, hG, Outcome.ofExcept]
      obtain ⟨c1, c2⟩ := ih { q with state := s1 } hat1
      exact ⟨by simp [List.replicate_succ, run, hP, c1], by simpa [List.replicate_succ, run, hP] using c2⟩
  obtain ⟨c1, c2⟩ := key m _ (at_createSequence (finiteProducer sh xs) (listScript xs))
  refine ⟨c1, ?_⟩
  obtain ⟨s1, h, -, -⟩ := forOf_at hp hne fuel 0 _ .start c2 (Nat.zero_le _) (by omega)
    (Or.inl rfl) (by simp)
  simp [iterateAll, h]

theorem first_value_reads_do_not_consume_witness :
    [Value.val 1, Value.val 2].head? = some (Value.val 1) ∧ 2 < 3 ∧
    (run (finiteProducer .array [Value.val 1, Value.val 2]) (List.replicate 3 Op.value)
        (createSequence (finiteProducer .array [Value.val 1, Value.val 2]))).1 =
      List.replicate 3 (.value (Value.val 1)) ∧
    (iterateAll (finiteProducer .array [Value.val 1, Value.val 2]) 3
        (run (finiteProducer .array [Value.val 1, Value.val 2]) (List.replicate 3 Op.value)
          (createSequence (finiteProducer .array [Value.val 1, Value.val 2]))).2.state).map
      (fun r => (r.delivered, r.error)) = some ([Value.val 1, Value.val 2], none) :=
  ⟨by decide, by decide,
    first_value_reads_do_not_consume .array [.val 1, .val 2] (.val 1) (by decide) 3 3
      (by decide)⟩

/-- C4: for a repeatable callable whose successive invocations return `v 0, v 1, ...`
and every series of calls and first-value reads on its sequence, the calls return
`v 0, v 1, ...` in order (the `k`-th call returns `v (k - 1)`, however many reads come
before or between the calls), and every read returns `v 0`. -/
theorem function_calls_and_reads (v : Nat → Value α) (ops : List Op)
    (hops : ∀ op ∈ ops, op = .call ∨ op = .value) :
    answers .call ops
        (run (ofFunction fun k => .ok (v k)) ops
          (createSequence (ofFunction fun k => .ok (v k)))).1 =
      (List.range (ops.count .call)).map (fun k => .value (v k)) ∧
    answers .value ops
        (run (ofFunction fun k => .ok (v k)) ops
          (createSequence (ofFunction fun k => .ok (v k)))).1 =
      List.replicate (ops.count .value) (.value (v 0)) := by
  obtain ⟨c1, c2, -, -⟩ := run_calls_reads (presents_ofFunction v) rfl v ops 0
    (createSequence (ofFunction fun k => .ok (v k))) (at_createSequence _ _) hops
    (fun _ _ _ => rfl)
  exact ⟨by simpa using c1, c2⟩

theorem function_calls_and_reads_witness :
    (∀ op ∈ [Op.value, Op.call, Op.value, Op.call, Op.value, Op.call],
      op = Op.call ∨ op = Op.value) ∧
    (run (ofFunction fun k => .ok (Value.val (42 + k)))
        [Op.value, Op.call, Op.value, Op.call, Op.value, Op.call]
        (createSequence (ofFunction fun k => .ok (Value.val (42 + k))))).1 =
      [.value (.val 42), .value (.val 42), .value (.val 42), .value (.val 43),
        .value (.val 42), .value (.val 44)] ∧
    (answers .call [Op.value, Op.call, Op.value, Op.call, Op.value, Op.call]
        (run (ofFunction fun k => .ok (Value.val (42 + k)))
          [Op.value, Op.call, Op.value, Op.call, Op.value, Op.call]
          (createSequence (ofFunction fun k => .ok (Value.val (42 + k))))).1 =
      (List.range
        ([Op.value, Op.call, Op.value, Op.call, Op.value, Op.call].count .call)).map
          (fun k => .value (Value.val (42 + k))) ∧
    answers .value [Op.value, Op.call, Op.value, Op.call, Op.value, Op.call]
        (run (ofFunction fun k => .ok (Value.val (42 + k)))
          [Op.value, Op.call, Op.value, Op.call, Op.value, Op.call]
          (createSequence (ofFunction fun k => .ok (Value.val (42 + k))))).1 =
      List.replicate ([Op.value, Op.call, Op.value, Op.call, Op.value, Op.call].count .value)
        (.value (Value.val (42 + 0)))) :=
  ⟨by decide, by decide,
    function_calls_and_reads (fun k => Value.val (42 + k))
      [.value, .call, .value, .call, .value, .call] (by decide)⟩

/-- C5 (what the code does): on the array `['a','b','c','d','e','f']`, two calls, an
iteration left by `break` after it delivered two values, and two more calls give
`'a','b'`, then `'c','d'`, then `undefined` twice: the `break` closes the shared
generator, so the last two calls do not resume with `'e','f'`. -/
theorem break_closes_shared_generator :
    (run (ofArray [Value.val "a", .val "b", .val "c", .val "d", .val "e", .val "f"])
        [.call, .call, .iterator, .next 0, .next 0, .ret 0, .call, .call]
        (createSequence
          (ofArray [Value.val "a", .val "b", .val "c", .val "d", .val "e", .val "f"]))).1 =
      [.value (.val "a"), .value (.val "b"), .unit, .value (.val "c"), .value (.val "d"),
        .done, .value .undefined, .value .undefined] := by
  decide

/-- C6: for every finite non-empty producer with elements `xs` (first element `e0`):
a series `pre` of calls and first-value reads holding `k <= |xs|` calls, then an
iteration stepped until it reports its end, with first-value reads anywhere between
its steps (`post`).  The calls return the first `k` elements, the iteration delivers
exactly the elements from `k` on and then ends, and every read returns `e0`: calls and
iteration together are one traversal of `xs`. -/
theorem calls_then_iteration_one_traversal (sh : Shape) (xs : List (Value α)) (e0 : Value α)
    (he : xs.head? = some e0) (pre post : List Op)
    (hpre : ∀ op ∈ pre, op = .call ∨ op = .value)
    (hpost : ∀ op ∈ post, op = .next 0 ∨ op = .value)
    (hk : pre.count .call ≤ xs.length)
    (hfull : post.count (.next 0) = xs.length - pre.count .call + 1) :
    answers .call (pre ++ .iterator :: post)
        (run (finiteProducer sh xs) (pre ++ .iterator :: post)
          (createSequence (finiteProducer sh xs))).1 =
      (xs.take (pre.count .call)).map .value ∧
    answers (.next 0) (pre ++ .iterator :: post)
        (run (finiteProducer sh xs) (pre ++ .iterator :: post)
          (createSequence (finiteProducer sh xs))).1 =
      (xs.drop (pre.count .call)).map .value ++ [.done] ∧
    answers .value (pre ++ .iterator :: post)
        (run (finiteProducer sh xs) (pre ++ .iterator :: post)
          (createSequence (finiteProducer sh xs))).1 =
      List.replicate ((pre ++ .iterator :: post).count .value) (.value e0) := by
  have hp := presents_finiteProducer sh xs
  have he0 := listScript_head he
  obtain ⟨a1, a2, a3, a4⟩ := run_calls_reads hp he0 (fun i => xs.getD i .undefined) pre 0
    (createSequence (finiteProducer sh xs)) (at_createSequence _ _) hpre
    (by intro i _ h2; exact listScript_yield (by omega))
  have hnext : Op.next 0 ∉ pre := by
    intro hmem
    rcases hpre _ hmem with h | h <;> cases h
  have hcall : Op.call ∉ post := by
    intro hmem
    rcases hpost _ hmem with h | h <;> cases h
  simp only [Nat.zero_add] at a1 a3
  have hP : perform (finiteProducer sh xs) .iterator
      (run (finiteProducer sh xs) pre (createSequence (finiteProducer sh xs))).2 =
      (.unit, { state := (run (finiteProducer sh xs) pre
                  (createSequence (finiteProducer sh xs))).2.state,
                iterators := [Phase.start] }) := by
    have a5 : (run (finiteProducer sh xs) pre
        (createSequence (finiteProducer sh xs))).2.iterators = [] := a4
    simp [perform, a5]
  obtain ⟨b1, b2⟩ := run_steps_reads hp he post (pre.count .call)
    { state := (run (finiteProducer sh xs) pre (createSequence (finiteProducer sh xs))).2.state,
      iterators := [Phase.start] } .start a3 rfl (Or.inl rfl) (by simp) hk hpost hfull
  have hrun : (run (finiteProducer sh xs) (.iterator :: post)
      (run (finiteProducer sh xs) pre (createSequence (finiteProducer sh xs))).2).1 =
      .unit :: (run (finiteProducer sh xs) post
        { state := (run (finiteProducer sh xs) pre
            (createSequence (finiteProducer sh xs))).2.state,
          iterators := [Phase.start] }).1 := by
    simp only [run, hP]
  refine ⟨?_, ?_, ?_⟩
  · rw [answers_run_append, a1, hrun, answers_cons_ne (by decide),
      answers_of_not_mem _ _ hcall, List.append_nil,
      ← range_map_getD_take xs .undefined _ hk, List.map_map]
    rfl
  · rw [answers_run_append, answers_of_not_mem _ _ hnext, hrun, answers_cons_ne (by decide),
      b1, List.nil_append]
  · rw [answers_run_append, a2, hrun, answers_cons_ne (by decide), b2, List.count_append,
      List.count_cons_of_ne (by decide), List.replicate_add]

theorem calls_then_iteration_one_traversal_witness :
    [Value.val 1, Value.val 2, Value.val 3].head? = some (Value.val 1) ∧
    (∀ op ∈ [Op.value, Op.call], op = Op.call ∨ op = Op.value) ∧
    (∀ op ∈ [Op.next 0, Op.value, Op.next 0, Op.next 0], op = Op.next 0 ∨ op = Op.value) ∧
    [Op.value, Op.call].count .call ≤ [Value.val 1, Value.val 2, Value.val 3].length ∧
    [Op.next 0, Op.value, Op.next 0, Op.next 0].count (.next 0) =
      [Value.val 1, Value.val 2, Value.val 3].length - [Op.value, Op.call].count .call + 1 ∧
    (answers .call ([Op.value, Op.call] ++ .iterator :: [Op.next 0, Op.value, Op.next 0, Op.next 0])
        (run (finiteProducer .arrayLike [Value.val 1, Value.val 2, Value.val 3])
          ([Op.value, Op.call] ++ .iterator :: [Op.next 0, Op.value, Op.next 0, Op.next 0])
          (createSequence (finiteProducer .arrayLike [Value.val 1, Value.val 2, Value.val 3]))).1 =
      ([Value.val 1, Value.val 2, Value.val 3].take ([Op.value, Op.call].count .call)).map .value ∧
    answers (.next 0)
        ([Op.value, Op.call] ++ .iterator :: [Op.next 0, Op.value, Op.next 0, Op.next 0])
        (run (finiteProducer .arrayLike [Value.val 1, Value.val 2, Value.val 3])
          ([Op.value, Op.call] ++ .iterator :: [Op.next 0, Op.value, Op.next 0, Op.next 0])
          (createSequence (finiteProducer .arrayLike [Value.val 1, Value.val 2, Value.val 3]))).1 =
      ([Value.val 1, Value.val 2, Value.val 3].drop ([Op.value, Op.call].count .call)).map .value
        ++ [.done] ∧
    answers .value
        ([Op.value, Op.call] ++ .iterator :: [Op.next 0, Op.value, Op.next 0, Op.next 0])
        (run (finiteProducer .arrayLike [Value.val 1, Value.val 2, Value.val 3])
          ([Op.value, Op.call] ++ .iterator :: [Op.next 0, Op.value, Op.next 0, Op.next 0])
          (createSequence (finiteProducer .arrayLike [Value.val 1, Value.val 2, Value.val 3]))).1 =
      List.replicate
        (([Op.value, Op.call] ++ .iterator ::
          [Op.next 0, Op.value, Op.next 0, Op.next 0]).count .value)
        (.value (Value.val 1))) :=
  ⟨by decide, by decide, by decide, by decide, by decide,
    calls_then_iteration_one_traversal .arrayLike [.val 1, .val 2, .val 3] (.val 1) (by decide)
      [.value, .call] [.next 0, .value, .next 0, .next 0] (by decide) (by decide) (by decide)
      (by decide)⟩

/-- C7: for a generator function yielding the finite non-empty list `xs`, the first
full iteration of the sequence delivers `xs` and a second full iteration delivers
nothing: every value is observed once in total. -/
theorem second_full_iteration_delivers_nothing (xs : List (Value α)) (hne : xs ≠ [])
    (fuel : Nat) (hfuel : xs.length < fuel) :
    ∃ r1 r2,
      iterateAll (ofGeneratorFunction (listScript xs)) fuel
          (createSequence (ofGeneratorFunction (listScript xs))).state = some r1 ∧
        r1.delivered = xs ∧ r1.error = none ∧
        iterateAll (ofGeneratorFunction (listScript xs)) fuel r1.state = some r2 ∧
        r2.delivered = [] ∧ r2.error = none := by
  have hp : Presents (ofGeneratorFunction (listScript xs)) (listScript xs) :=
    presents_finiteProducer .generatorFunction xs
  obtain ⟨s1, h1, hat1, -⟩ := forOf_at hp hne fuel 0 _ .start
    (at_createSequence (ofGeneratorFunction (listScript xs)) _) (Nat.zero_le _) (by omega)
    (Or.inl rfl) (by simp)
  obtain ⟨s2, h2, -, -⟩ := forOf_at hp hne fuel xs.length s1 .start hat1 (le_refl _) (by omega)
    (Or.inl rfl) (by simp)
  exact ⟨_, _, h1, by simp, rfl, h2, by simp, rfl⟩

theorem second_full_iteration_delivers_nothing_witness :
    [Value.val 1, Value.val 2] ≠ [] ∧ [Value.val 1, Value.val 2].length < 3 ∧
    ∃ r1 r2,
      iterateAll (ofGeneratorFunction (listScript [Value.val 1, Value.val 2])) 3
          (createSequence (ofGeneratorFunction (listScript [Value.val 1, Value.val 2]))).state
          = some r1 ∧
        r1.delivered = [Value.val 1, Value.val 2] ∧ r1.error = none ∧
        iterateAll (ofGeneratorFunction (listScript [Value.val 1, Value.val 2])) 3 r1.state
          = some r2 ∧
        r2.delivered = [] ∧ r2.error = none :=
  ⟨by decide, by decide,
    second_full_iteration_delivers_nothing [.val 1, .val 2] (by decide) 3 (by decide)⟩

/-! ## The first-value cache under any operation -/

theorem nextValueLoop_frame (p : Producer α) (s : State α) :
    (nextValueLoop p s).2.2.firstValue = s.firstValue ∧
    (nextValueLoop p s).2.2.firstValueTaken = s.firstValueTaken := by
  have h := generatorNext_frame p s
  unfold nextValueLoop
  rcases hg : generatorNext p s with ⟨r, s1⟩
  rw [hg] at h
  cases r <;> exact ⟨h.1, h.2.1⟩

theorem nextValueNext_taken (p : Producer α) (ph : Phase) (s : State α)
    (ht : s.firstValueTaken = true) :
    (nextValueNext p ph s).2.2.firstValueTaken = true ∧
    (nextValueNext p ph s).2.2.firstValue = s.firstValue := by
  have hl := nextValueLoop_frame p s
  have h67 : (nextValueFrom67 p s).2.2.firstValueTaken = true ∧
      (nextValueFrom67 p s).2.2.firstValue = s.firstValue := by
    unfold nextValueFrom67
    split
    · exact ⟨ht, rfl⟩
    · exact ⟨hl.2.trans ht, hl.1⟩
  cases ph
  · simp only [nextValueNext, ht]; exact h67
  · exact h67
  · exact ⟨hl.2.trans ht, hl.1⟩
  · exact ⟨hl.2.trans ht, hl.1⟩
  · exact ⟨ht, rfl⟩

theorem mem_set_of_forall {P : Phase → Prop} {l : List Phase} (h : ∀ ph ∈ l, P ph) (i : Nat)
    {x : Phase} (hx : P x) : ∀ ph ∈ l.set i x, P ph := by
  intro ph hph
  rcases List.mem_or_eq_of_mem_set hph with h1 | h1
  · exact h ph h1
  · exact h1 ▸ hx

/-- Every operation keeps the first-value cache: untouched before the first pull, equal
to the first element after it. -/
theorem perform_firstCached {p : Producer α} {e0 : Value α}
    (hfirst : (generatorNext p (createSequence p).state).1 = .yield e0) (op : Op)
    (q : Sequence α) (h : FirstCached p e0 q) : FirstCached p e0 (perform p op q).2 := by
  obtain ⟨s1, hs1⟩ : ∃ s1, generatorNext p (createSequence p).state = (.yield e0, s1) :=
    ⟨_, Prod.ext hfirst rfl⟩
  have hnt : (createSequence p).state.firstValueTaken = false := rfl
  rcases h with ⟨hq, hit⟩ | ⟨ht, hv⟩
  · have hstart : (nextValueNext p .start q.state).2.2.firstValueTaken = true ∧
        (nextValueNext p .start q.state).2.2.firstValue = e0 := by
      simp [nextValueNext, getFirstValue, hq, hnt, hs1]
    cases op with
    | call =>
      right
      simp only [perform, apply]
      rcases hn : nextValueNext p .start q.state with ⟨r, ph1, s2⟩
      rw [hn] at hstart
      cases r <;> exact hstart
    | value =>
      right
      simp [perform, getFirstValue, hq, hnt, hs1]
    | iterator =>
      left
      refine ⟨hq, ?_⟩
      intro ph hph
      simp only [perform, List.mem_append, List.mem_singleton] at hph
      rcases hph with h1 | h1
      · exact hit ph h1
      · exact Or.inl h1
    | next i =>
      simp only [perform]
      cases hget : q.iterators.get? i with
      | none => exact Or.inl ⟨hq, hit⟩
      | some ph =>
        have hmem : ph ∈ q.iterators := List.get?_mem hget
        rcases hit ph hmem with h1 | h1
        · subst h1
          exact Or.inr hstart
        · subst h1
          left
          exact ⟨hq, mem_set_of_forall hit i (Or.inr rfl)⟩
    | ret i =>
      simp only [perform]
      cases hget : q.iterators.get? i with
      | none => exact Or.inl ⟨hq, hit⟩
      | some ph =>
        have hmem : ph ∈ q.iterators := List.get?_mem hget
        left
        rcases hit ph hmem with h1 | h1 <;> subst h1 <;>
          exact ⟨hq, mem_set_of_forall hit i (Or.inr rfl)⟩
    | set => exact Or.inl ⟨hq, hit⟩
    | setPrototypeOf => exact Or.inl ⟨hq, hit⟩
  · right
    cases op with
    | call =>
      have hn := nextValueNext_taken p .start q.state ht
      simp only [perform, apply]
      rcases hn1 : nextValueNext p .start q.state with ⟨r, ph1, s2⟩
      rw [hn1] at hn
      cases r <;> exact ⟨hn.1, hn.2.trans hv⟩
    | value => simp [perform, getFirstValue, ht, hv]
    | iterator => exact ⟨ht, hv⟩
    | next i =>
      simp only [perform]
      cases hget : q.iterators.get? i with
      | none => exact ⟨ht, hv⟩
      | some ph =>
        have hn := nextValueNext_taken p ph q.state ht
        exact ⟨hn.1, hn.2.trans hv⟩
    | ret i =>
      simp only [perform]
      cases hget : q.iterators.get? i with
      | none => exact ⟨ht, hv⟩
      | some ph => cases ph <;> exact ⟨ht, hv⟩
    | set => exact ⟨ht, hv⟩
    | setPrototypeOf => exact ⟨ht, hv⟩

theorem run_firstCached {p : Producer α} {e0 : Value α}
    (hfirst : (generatorNext p (createSequence p).state).1 = .yield e0) (ops : List Op) :
    ∀ q : Sequence α, FirstCached p e0 q → FirstCached p e0 (run p ops q).2 := by
  induction ops with
  | nil => intro q h; exact h
  | cons o ops ih => intro q h; exact ih _ (perform_firstCached hfirst o q h)

/-- C3: for every producer whose first pull yields `e0` and every finite series of
operations on its sequence (calls, first-value reads, iterator creations, iterator
steps, early exits, rejected assignments), a first-value read made afterwards returns
`e0`: whichever access pulled the first value and however far the traversal went. -/
theorem first_value_read_returns_first_element (p : Producer α) (e0 : Value α)
    (hfirst : (generatorNext p (createSequence p).state).1 = .yield e0) (ops : List Op) :
    (perform p .value (run p ops (createSequence p)).2).1 = .value e0 := by
  have h := run_firstCached hfirst ops (createSequence p)
    (Or.inl ⟨rfl, by intro ph hph; cases hph⟩)
  obtain ⟨s1, hs1⟩ : ∃ s1, generatorNext p (createSequence p).state = (.yield e0, s1) :=
    ⟨_, Prod.ext hfirst rfl⟩
  rcases h with ⟨hq, -⟩ | ⟨ht, hv⟩
  · have hnt : (createSequence p).state.firstValueTaken = false := rfl
    simp [perform, getFirstValue, hq, hnt, hs1, Outcome.ofExcept]
  · simp [perform, getFirstValue, ht, hv, Outcome.ofExcept]

theorem first_value_read_returns_first_element_witness :
    (generatorNext (ofFunction fun k => .ok (Value.val (42 + k)))
        (createSequence (ofFunction fun k => .ok (Value.val (42 + k)))).state).1 =
      .yield (Value.val 42) ∧
    (perform (ofFunction fun k => .ok (Value.val (42 + k))) .value
        (run (ofFunction fun k => .ok (Value.val (42 + k)))
          [.call, .iterator, .next 0, .value, .ret 0, .call]
          (createSequence (ofFunction fun k => .ok (Value.val (42 + k))))).2).1 =
      .value (Value.val 42) :=
  ⟨by decide,
    first_value_read_returns_first_element (ofFunction fun k => .ok (Value.val (42 + k)))
      (Value.val 42) (by decide) [.call, .iterator, .next 0, .value, .ret 0, .call]⟩

/-- C8: in every state of a sequence, assigning a property and rebinding the prototype
both fail with the error `This operation is not allowed` and leave the sequence (flags,
cached value, generator, iterators) unchanged, so a first-value read afterwards behaves
exactly as it would have before the attempt. -/
theorem mutation_rejected (p : Producer α) (q : Sequence α) :
    perform p .set q = (.error "This operation is not allowed", q) ∧
    perform p .setPrototypeOf q = (.error "This operation is not allowed", q) ∧
    perform p .value (perform p .set q).2 = perform p .value q ∧
    perform p .value (perform p .setPrototypeOf q).2 = perform p .value q :=
  ⟨rfl, rfl, rfl, rfl⟩

/-! ## Array-like objects and arrays -/

theorem generatorNext_arrayLike (xs : List (Value α)) :
    generatorNext (ofArrayLike xs) = generatorNext (ofArray xs) := by
  have hl : ∀ k, loopPull (ofArrayLike xs) k = loopPull (ofArray xs) k := fun k =>
    ((presents_finiteProducer .arrayLike xs).2 k).trans
      ((presents_finiteProducer .array xs).2 k).symm
  have h1 : callsProducer (ofArrayLike xs) = false := rfl
  have h2 : callsProducer (ofArray xs) = false := rfl
  have h3 : invokesGenerator (ofArrayLike xs) = false := rfl
  have h4 : invokesGenerator (ofArray xs) = false := rfl
  have h5 : producerIterator (ofArray xs) = .ok (some (listScript xs)) := rfl
  have h6 : ∃ o, producerIterator (ofArrayLike xs) = .ok o := ⟨_, rfl⟩
  obtain ⟨o, h6⟩ := h6
  funext s
  rcases s with ⟨fv, tk, st, g, pl, inv⟩
  cases g <;> simp [generatorNext, generatorResume, hl, h1, h2, h3, h4, h5, h6]

theorem nextValueNext_congr {p r : Producer α} (h : generatorNext p = generatorNext r) :
    nextValueNext p = nextValueNext r := by
  have h1 : getFirstValue p = getFirstValue r := by
    funext s; simp only [getFirstValue, h]
  have h2 : nextValueLoop p = nextValueLoop r := by
    funext s; simp only [nextValueLoop, h]
  have h3 : nextValueFrom67 p = nextValueFrom67 r := by
    funext s; simp only [nextValueFrom67, h2]
  funext ph s
  cases ph <;> simp only [nextValueNext, h1, h2, h3]

theorem perform_congr {p r : Producer α} (h : generatorNext p = generatorNext r) :
    perform p = perform r := by
  have h1 : getFirstValue p = getFirstValue r := by
    funext s; simp only [getFirstValue, h]
  have h4 := nextValueNext_congr h
  have h5 : apply p = apply r := by
    funext s; simp only [apply, h4]
  funext op q
  cases op <;> simp only [perform, h1, h4, h5]

/-- C9: for every list `xs`, the sequence over the array-like object
`{0: xs[0], ..., length: |xs|}` and the sequence over the array `xs` answer every finite
series of calls, first-value reads, iterator creations, steps and early exits with the
same outcomes and reach the same state; so does every full iteration from any state. -/
theorem arrayLike_behaves_as_array (xs : List (Value α)) (ops : List Op) (fuel : Nat)
    (s : State α) :
    run (ofArrayLike xs) ops (createSequence (ofArrayLike xs)) =
      run (ofArray xs) ops (createSequence (ofArray xs)) ∧
    iterateAll (ofArrayLike xs) fuel s = iterateAll (ofArray xs) fuel s := by
  have h := generatorNext_arrayLike xs
  have hperf := perform_congr h
  constructor
  · have key : ∀ q, run (ofArrayLike xs) ops q = run (ofArray xs) ops q := by
      induction ops with
      | nil => intro q; rfl
      | cons o ops ih => intro q; simp only [run, hperf, ih]
    exact key _
  · have hn := nextValueNext_congr h
    have key : ∀ fuel ph s, forOf (ofArrayLike xs) fuel ph s = forOf (ofArray xs) fuel ph s := by
      intro fuel
      induction fuel with
      | zero => intro ph s; rfl
      | succ n ih => intro ph s; simp only [forOf, hn, ih]
    exact key fuel .start s

/-! ## Classification -/

theorem generatorNext_fst {p : Producer α} (ho : ∃ o, producerIterator p = .ok o)
    (s : State α) (hs : s.generator ≠ .completed) :
    (generatorNext p s).1 = loopPull p s.pulled := by
  obtain ⟨o, ho⟩ := ho
  rcases s with ⟨fv, tk, st, g, pl, inv⟩
  cases g
  · by_cases hi : invokesGenerator p = true <;> rcases hl : loopPull p pl with v | _ | e <;>
      simp [generatorNext, generatorResume, ho, hi, hl]
  · rcases hl : loopPull p pl with v | _ | e <;>
      simp [generatorNext, generatorResume, hl]
  · exact absurd rfl hs

theorem loopPull_eq_specLazySource (p : Producer α)
    (hc : ∃ o, producerIterator p = .ok o)
    (ha : p.kind = .array → p.iterator.isSome = true)
    (ht : (p.iterator.isSome = true ∨ p.prototype = .iterable) →
      producerIterator p ≠ .ok none)
    (k : Nat) : loopPull p k = specLazySource p k := by
  obtain ⟨o, hc⟩ := hc
  rcases p with ⟨kind, it, proto, inv, len, item, result⟩
  rcases len with _ | n | _ <;> rcases inv with ⟨_ | _, r⟩ | e1 <;>
    rcases kind with _ | _ | _ | ⟨_ | _⟩ | _ <;> cases it <;> cases proto <;>
    simp [loopPull, producerIterator, specLazySource, specVariant, isFunction, truthy,
      arrayFrom, indexed] at hc ha ht ⊢

theorem loopPull_iterator (p : Producer α) (it : Nat → Pull α) (hit : p.iterator = some it)
    (ht : truthy p = true) (k : Nat) :
    (∃ o, producerIterator p = .ok o) ∧ loopPull p k = it k := by
  rcases p with ⟨kind, i, proto, inv, len, item, result⟩
  cases hit
  rcases kind with _ | _ | _ | ⟨_ | _⟩ | _ <;>
    simp [loopPull, producerIterator, truthy] at ht ⊢

/-- C10 (the claim fails): `{prototype: null, 0: 0, length: 1}` and
`{prototype: [], 0: 0, length: 1}` are array-like objects without an iterator, and no
generator functions (they cannot be invoked), so by the priority order the sequence
delivers the indexed element `0`; the code throws a `TypeError` at the first pull,
because the test of line 29 on `producer.prototype` comes before the array-like test.
`{0: 0, length: 2 ** 32}` is array-like as well and `Array.from` throws a
`RangeError`. -/
theorem prototype_test_precedes_array_like :
    specVariant (objectWith .null (some (.fits 1))) = .fixedCollectionArrayLike ∧
    specLazySource (objectWith .null (some (.fits 1))) 0 = .yield (.val 0) ∧
    (run (objectWith .null (some (.fits 1))) [.call]
      (createSequence (objectWith .null (some (.fits 1))))).1 = [.error "TypeError"] ∧
    specVariant (objectWith .iterable (some (.fits 1))) = .fixedCollectionArrayLike ∧
    specLazySource (objectWith .iterable (some (.fits 1))) 0 = .yield (.val 0) ∧
    (run (objectWith .iterable (some (.fits 1))) [.call]
      (createSequence (objectWith .iterable (some (.fits 1))))).1 = [.error "TypeError"] ∧
    specVariant (objectWith .notObject (some .tooLong)) = .fixedCollectionArrayLike ∧
    (run (objectWith .notObject (some .tooLong)) [.call]
      (createSequence (objectWith .notObject (some .tooLong)))).1 = [.error "RangeError"] :=
  ⟨by decide, by decide, by decide, by decide, by decide, by decide, by decide, by decide⟩

/-- C10 (amended): for every producer on which lines 25-35 raise no exception, an array
being iterable and the value chosen for the iteration being truthy, the values
`generator` pulls are those of the priority order: custom iterable, then generator
function (a function whose `prototype` carries an iterator method), then array, then
array-like object with numeric length, then repeatable callable.  In particular,
whenever a truthy producer (every object is) exposes its own iterator, the values
pulled are the iterator's, whatever its `prototype`, `length` and indexed elements
are. -/
theorem classification_priority (p : Producer α) (s : State α)
    (hs : s.generator ≠ .completed) :
    ((∃ o, producerIterator p = .ok o) →
      (p.kind = .array → p.iterator.isSome = true) →
      ((p.iterator.isSome = true ∨ p.prototype = .iterable) →
        producerIterator p ≠ .ok none) →
      (generatorNext p s).1 = specLazySource p s.pulled) ∧
    ∀ it, p.iterator = some it → truthy p = true → (generatorNext p s).1 = it s.pulled := by
  constructor
  · intro hc ha ht
    exact (generatorNext_fst hc s hs).trans (loopPull_eq_specLazySource p hc ha ht s.pulled)
  · intro it hit ht
    have h := loopPull_iterator p it hit ht s.pulled
    exact (generatorNext_fst h.1 s hs).trans h.2

theorem classification_priority_witness :
    (createSequence arrayLikeWithIterator).state.generator ≠ .completed ∧
    (∃ o, producerIterator arrayLikeWithIterator = .ok o) ∧
    specVariant arrayLikeWithIterator = .customIterable ∧
    specLazySource arrayLikeWithIterator 0 = .yield (.val 7) ∧
    arrayLikeWithIterator.item 0 = .val 0 ∧
    (generatorNext arrayLikeWithIterator (createSequence arrayLikeWithIterator).state).1 =
      specLazySource arrayLikeWithIterator
        (createSequence arrayLikeWithIterator).state.pulled ∧
    (generatorNext arrayLikeWithIterator (createSequence arrayLikeWithIterator).state).1 =
      listScript [.val 7, .val 8] (createSequence arrayLikeWithIterator).state.pulled ∧
    (generatorNext (ofGeneratorFunction (listScript [Value.val 5]))
      (createSequence (ofGeneratorFunction (listScript [Value.val 5]))).state).1 =
      specLazySource (ofGeneratorFunction (listScript [Value.val 5]))
        (createSequence (ofGeneratorFunction (listScript [Value.val 5]))).state.pulled :=
  ⟨by decide, ⟨_, rfl⟩, by decide, by decide, by decide,
    (classification_priority arrayLikeWithIterator
      (createSequence arrayLikeWithIterator).state (by decide)).1 ⟨_, rfl⟩ (by decide)
      (fun _ h => by cases h),
    (classification_priority arrayLikeWithIterator
      (createSequence arrayLikeWithIterator).state (by decide)).2 _ rfl rfl,
    (classification_priority (ofGeneratorFunction (listScript [Value.val 5]))
      (createSequence (ofGeneratorFunction (listScript [Value.val 5]))).state (by decide)).1
      ⟨_, rfl⟩ (by decide) (fun _ h => by cases h)⟩

/-! ## Flags of the first-value cache -/

theorem generatorNext_started (p : Producer α) (s : State α) :
    (generatorNext p s).2.generator ≠ .suspendedStart := by
  rcases s with ⟨fv, tk, st, g, pl, inv⟩
  cases g
  · simp only [generatorNext]
    split
    · simp
    · simp only [generatorResume]; split <;> simp
  · simp only [generatorNext, generatorResume]; split <;> simp
  · simp [generatorNext]

theorem generatorNext_not_yield_completed (p : Producer α) (s : State α)
    (h : ∀ v, (generatorNext p s).1 ≠ .yield v) :
    (generatorNext p s).2.generator = .completed := by
  rcases s with ⟨fv, tk, st, g, pl, inv⟩
  cases g
  · simp only [generatorNext] at h ⊢
    split
    · simp
    · simp only [generatorResume] at h ⊢
      split <;> simp_all
  · simp only [generatorNext, generatorResume] at h ⊢
    split <;> simp_all
  · simp [generatorNext]

theorem nextValueLoop_flags (p : Producer α) (s : State α) :
    (nextValueLoop p s).2.2.firstValue = s.firstValue ∧
    (nextValueLoop p s).2.2.firstValueTaken = s.firstValueTaken ∧
    (nextValueLoop p s).2.2.firstValueSent = s.firstValueSent := by
  have h := generatorNext_frame p s
  unfold nextValueLoop
  rcases hg : generatorNext p s with ⟨r, s1⟩
  rw [hg] at h
  cases r <;> exact h

theorem getFirstValue_sent (p : Producer α) (s : State α) :
    (getFirstValue p s).2.firstValueSent = s.firstValueSent := by
  have h := generatorNext_frame p s
  unfold getFirstValue
  split
  · rcases hg : generatorNext p s with ⟨r, s1⟩
    rw [hg] at h
    cases r <;> exact h.2.2
  · rfl

theorem getFirstValue_taken (p : Producer α) (s : State α)
    (ht : s.firstValueTaken = true) : getFirstValue p s = (.ok s.firstValue, s) := by
  simp [getFirstValue, ht]

theorem apply_state (p : Producer α) (s : State α) :
    (apply p s).2 = (nextValueNext p .start s).2.2 := by
  unfold apply
  rcases nextValueNext p .start s with ⟨r, ph, s1⟩
  cases r <;> rfl

/-- One `next()` keeps the flags coherent, and leaves the iterator finished or
suspended with the first value taken and sent. -/
theorem nextValueNext_coherent (p : Producer α) (ph : Phase) (s : State α)
    (hc : s.firstValueSent = true → s.firstValueTaken = true)
    (hph : ph = .start ∨ ph = .finished ∨
      (s.firstValueTaken = true ∧ s.firstValueSent = true)) :
    ((nextValueNext p ph s).2.2.firstValueSent = true →
        (nextValueNext p ph s).2.2.firstValueTaken = true) ∧
      ((nextValueNext p ph s).2.1 = .finished ∨
        ((nextValueNext p ph s).2.2.firstValueTaken = true ∧
          (nextValueNext p ph s).2.2.firstValueSent = true)) := by
  have hl := nextValueLoop_flags p s
  have hg := generatorNext_frame p s
  have hloop : s.firstValueTaken = true → s.firstValueSent = true →
      (nextValueLoop p s).2.2.firstValueTaken = true ∧
        (nextValueLoop p s).2.2.firstValueSent = true :=
    fun h1 h2 => ⟨hl.2.1.trans h1, hl.2.2.trans h2⟩
  have h67 : s.firstValueTaken = true →
      (nextValueFrom67 p s).2.2.firstValueTaken = true ∧
        (nextValueFrom67 p s).2.2.firstValueSent = true := by
    intro h1
    unfold nextValueFrom67
    split
    · exact ⟨h1, rfl⟩
    · rename_i h2
      exact hloop h1 (by simpa using h2)
  cases ph with
  | start =>
    by_cases ht : s.firstValueTaken = true
    · have := h67 ht
      simp only [nextValueNext, ht]
      exact ⟨fun _ => this.1, Or.inr this⟩
    · have ht' : s.firstValueTaken = false := by simpa using ht
      have hs' : s.firstValueSent = false := by
        cases hs : s.firstValueSent
        · rfl
        · rw [hc hs] at ht'; cases ht'
      simp only [nextValueNext, getFirstValue, ht']
      rcases hgn : generatorNext p s with ⟨r, s1⟩
      rw [hgn] at hg
      cases r
      · exact ⟨fun _ => rfl, Or.inr ⟨rfl, rfl⟩⟩
      · exact ⟨fun _ => rfl, Or.inr ⟨rfl, rfl⟩⟩
      · refine ⟨?_, Or.inl rfl⟩
        intro h
        have : s1.firstValueSent = false := hg.2.2.trans hs'
        simp [this] at h
  | finished => exact ⟨hc, Or.inl rfl⟩
  | yield65 =>
    rcases hph with h | h | h
    · cases h
    · cases h
    · have := h67 h.1
      exact ⟨fun _ => this.1, Or.inr this⟩
  | yield70 =>
    rcases hph with h | h | h
    · cases h
    · cases h
    · have := hloop h.1 h.2
      exact ⟨fun _ => this.1, Or.inr this⟩
  | yield74 =>
    rcases hph with h | h | h
    · cases h
    · cases h
    · have := hloop h.1 h.2
      exact ⟨fun _ => this.1, Or.inr this⟩

/-- One `next()` never clears a flag. -/
theorem nextValueNext_sent (p : Producer α) (ph : Phase) (s : State α)
    (hs : s.firstValueSent = true) : (nextValueNext p ph s).2.2.firstValueSent = true := by
  have hl := nextValueLoop_flags p s
  have hg := getFirstValue_sent p s
  have h67 : (nextValueFrom67 p s).2.2.firstValueSent = true := by
    unfold nextValueFrom67
    split
    · rfl
    · exact hl.2.2.trans hs
  cases ph with
  | start =>
    simp only [nextValueNext]
    split
    · rcases hgf : getFirstValue p s with ⟨r, s1⟩
      rw [hgf] at hg
      cases r
      · exact hg.trans hs
      · rfl
    · exact h67
  | finished => exact hs
  | yield65 => exact h67
  | yield70 => exact hl.2.2.trans hs
  | yield74 => exact hl.2.2.trans hs

/-- No operation clears a flag or changes the cached first value once it is taken. -/
theorem perform_flags (p : Producer α) (op : Op) (q : Sequence α) :
    (q.state.firstValueTaken = true → (perform p op q).2.state.firstValueTaken = true) ∧
    (q.state.firstValueSent = true → (perform p op q).2.state.firstValueSent = true) ∧
    (q.state.firstValueTaken = true →
      (perform p op q).2.state.firstValue = q.state.firstValue) := by
  cases op with
  | call =>
    simp only [perform, apply_state]
    exact ⟨fun h => (nextValueNext_taken p .start q.state h).1,
      nextValueNext_sent p .start q.state,
      fun h => (nextValueNext_taken p .start q.state h).2⟩
  | value =>
    simp only [perform]
    refine ⟨fun h => ?_, fun h => (getFirstValue_sent p q.state).trans h, fun h => ?_⟩
    · rw [getFirstValue_taken p _ h]; exact h
    · rw [getFirstValue_taken p _ h]
  | iterator => exact ⟨id, id, fun _ => rfl⟩
  | next i =>
    simp only [perform]
    cases q.iterators.get? i with
    | none => exact ⟨id, id, fun _ => rfl⟩
    | some ph =>
      exact ⟨fun h => (nextValueNext_taken p ph q.state h).1,
        nextValueNext_sent p ph q.state,
        fun h => (nextValueNext_taken p ph q.state h).2⟩
  | ret i =>
    simp only [perform]
    cases q.iterators.get? i with
    | none => exact ⟨id, id, fun _ => rfl⟩
    | some ph => cases ph <;> exact ⟨id, id, fun _ => rfl⟩
  | set => exact ⟨id, id, fun _ => rfl⟩
  | setPrototypeOf => exact ⟨id, id, fun _ => rfl⟩

theorem perform_coherent (p : Producer α) (op : Op) (q : Sequence α) (h : Coherent q) :
    Coherent (perform p op q).2 := by
  obtain ⟨hc, hit⟩ := h
  have hm := perform_flags p op q
  have hothers : ∀ ph ∈ q.iterators, ph = .start ∨ ph = .finished ∨
      ((perform p op q).2.state.firstValueTaken = true ∧
        (perform p op q).2.state.firstValueSent = true) := by
    intro ph hph
    rcases hit ph hph with h1 | h1 | h1
    · exact Or.inl h1
    · exact Or.inr (Or.inl h1)
    · exact Or.inr (Or.inr ⟨hm.1 h1.1, hm.2.1 h1.2⟩)
  cases op with
  | call =>
    have hn := nextValueNext_coherent p .start q.state hc (Or.inl rfl)
    refine ⟨?_, hothers⟩
    simp only [perform, apply_state]
    exact hn.1
  | value =>
    refine ⟨?_, hothers⟩
    intro hs
    have h1 : q.state.firstValueSent = true := by
      have := getFirstValue_sent p q.state
      simp only [perform] at hs
      rw [this] at hs
      exact hs
    exact hm.1 (hc h1)
  | iterator =>
    refine ⟨hc, ?_⟩
    intro ph hph
    simp only [perform, List.mem_append, List.mem_singleton] at hph
    rcases hph with h1 | h1
    · exact hit ph h1
    · exact Or.inl h1
  | next i =>
    simp only [perform] at hothers ⊢
    cases hget : q.iterators.get? i with
    | none => exact ⟨hc, hit⟩
    | some ph =>
      rw [hget] at hothers
      have hn := nextValueNext_coherent p ph q.state hc (hit ph (List.get?_mem hget))
      refine ⟨hn.1, ?_⟩
      intro ph1 hph1
      rcases List.mem_or_eq_of_mem_set hph1 with h1 | h1
      · exact hothers ph1 h1
      · rcases hn.2 with h2 | h2
        · exact Or.inr (Or.inl (h1.trans h2))
        · exact Or.inr (Or.inr h2)
  | ret i =>
    simp only [perform] at hothers ⊢
    cases hget : q.iterators.get? i with
    | none => exact ⟨hc, hit⟩
    | some ph =>
      rw [hget] at hothers
      have hst : (nextValueReturn ph q.state).2.firstValueTaken = q.state.firstValueTaken ∧
          (nextValueReturn ph q.state).2.firstValueSent = q.state.firstValueSent := by
        cases ph <;> exact ⟨rfl, rfl⟩
      have hph : (nextValueReturn ph q.state).1 = .finished := by cases ph <;> rfl
      refine ⟨?_, ?_⟩
      · simp only [hst.1, hst.2]; exact hc
      · intro ph1 hph1
        rcases List.mem_or_eq_of_mem_set hph1 with h1 | h1
        · exact hothers ph1 h1
        · exact Or.inr (Or.inl (h1.trans hph))
  | set => exact ⟨hc, hit⟩
  | setPrototypeOf => exact ⟨hc, hit⟩

theorem run_coherent (p : Producer α) (ops : List Op) :
    ∀ q : Sequence α, Coherent q → Coherent (run p ops q).2 := by
  induction ops with
  | nil => intro q h; exact h
  | cons o ops ih => intro q h; exact ih _ (perform_coherent p o q h)

theorem coherent_createSequence (p : Producer α) : Coherent (createSequence p) := by
  constructor
  · intro h; cases h
  · intro ph hph; cases hph

/-- C14: in every state reached from a fresh sequence by any series of operations
(calls, iterator steps, first-value reads, rejected mutations, also iterator creations
and early exits): `firstValueSent` implies `firstValueTaken`; no further operation
turns a flag that is true back to false; no further operation changes the cached first
value once `firstValueTaken` holds; and a first-value read leaves `firstValueSent` as
it is. -/
theorem cache_flags_invariant (p : Producer α) (ops : List Op) (op : Op) :
    ((run p ops (createSequence p)).2.state.firstValueSent = true →
      (run p ops (createSequence p)).2.state.firstValueTaken = true) ∧
    ((run p ops (createSequence p)).2.state.firstValueTaken = true →
      (perform p op (run p ops (createSequence p)).2).2.state.firstValueTaken = true) ∧
    ((run p ops (createSequence p)).2.state.firstValueSent = true →
      (perform p op (run p ops (createSequence p)).2).2.state.firstValueSent = true) ∧
    ((run p ops (createSequence p)).2.state.firstValueTaken = true →
      (perform p op (run p ops (createSequence p)).2).2.state.firstValue =
        (run p ops (createSequence p)).2.state.firstValue) ∧
    (perform p .value (run p ops (createSequence p)).2).2.state.firstValueSent =
      (run p ops (createSequence p)).2.state.firstValueSent := by
  have hc := run_coherent p ops _ (coherent_createSequence p)
  have hm := perform_flags p op (run p ops (createSequence p)).2
  exact ⟨hc.1, hm.1, hm.2.1, hm.2.2, getFirstValue_sent p _⟩

/-! ## Failed pulls -/

theorem nextValueLoop_throw (p : Producer α) (s : State α) (e : Error)
    (h : (nextValueLoop p s).1 = .throw e) :
    (nextValueLoop p s).2.1 = .finished ∧ (nextValueLoop p s).2.2 = (generatorNext p s).2 ∧
      (generatorNext p s).1 = .throw e := by
  unfold nextValueLoop at h ⊢
  rcases hg : generatorNext p s with ⟨r, s1⟩
  rw [hg] at h
  cases r <;> simp_all

/-- An iterator step that throws: the exception comes from `generator.next()`, whose
resulting state is kept, and the iterator is finished. -/
theorem nextValueNext_throw (p : Producer α) (ph : Phase) (s : State α) (e : Error)
    (h : (nextValueNext p ph s).1 = .throw e) :
    (nextValueNext p ph s).2.1 = .finished ∧
      (nextValueNext p ph s).2.2 = (generatorNext p s).2 ∧
      (generatorNext p s).1 = .throw e ∧
      (ph = .start → s.firstValueTaken = true → s.firstValueSent = true) := by
  have h67 : (nextValueFrom67 p s).1 = .throw e →
      (nextValueFrom67 p s).2.1 = .finished ∧
        (nextValueFrom67 p s).2.2 = (generatorNext p s).2 ∧
        (generatorNext p s).1 = .throw e ∧ s.firstValueSent = true := by
    unfold nextValueFrom67
    split
    · intro h1; cases h1
    · rename_i hs
      intro h1
      have := nextValueLoop_throw p s e h1
      exact ⟨this.1, this.2.1, this.2.2, by simpa using hs⟩
  cases ph with
  | start =>
    by_cases ht : s.firstValueTaken = true
    · simp only [nextValueNext, ht] at h ⊢
      have := h67 h
      exact ⟨this.1, this.2.1, this.2.2.1, fun _ _ => this.2.2.2⟩
    · have ht' : s.firstValueTaken = false := by simpa using ht
      simp only [nextValueNext, getFirstValue, ht'] at h ⊢
      rcases hg : generatorNext p s with ⟨r, s1⟩
      rw [hg] at h
      cases r <;> simp_all
  | yield65 =>
    have := h67 h
    exact ⟨this.1, this.2.1, this.2.2.1, fun h1 => by cases h1⟩
  | yield70 =>
    have := nextValueLoop_throw p s e h
    exact ⟨this.1, this.2.1, this.2.2, fun h1 => by cases h1⟩
  | yield74 =>
    have := nextValueLoop_throw p s e h
    exact ⟨this.1, this.2.1, this.2.2, fun h1 => by cases h1⟩
  | finished => cases h

theorem generatorNext_throw_completed (p : Producer α) (s : State α) (e : Error)
    (h : (generatorNext p s).1 = .throw e) :
    (generatorNext p s).2.generator = .completed :=
  generatorNext_not_yield_completed p s (fun v hv => by rw [h] at hv; cases hv)

/-- A call on a sequence whose `generator` is completed pulls nothing and returns
`undefined`, unless the first value is taken and not sent yet. -/
theorem apply_completed (p : Producer α) (s : State α) (hg : s.generator = .completed)
    (hs : s.firstValueTaken = true → s.firstValueSent = true) :
    (apply p s).1 = .ok .undefined ∧ (apply p s).2.invoked = s.invoked ∧
      (apply p s).2.generator = .completed := by
  have hgn := generatorNext_completed p s hg
  by_cases ht : s.firstValueTaken = true
  · have hsent := hs ht
    simp [apply, nextValueNext, nextValueFrom67, nextValueLoop, ht, hsent, hgn, hg]
  · have ht' : s.firstValueTaken = false := by simpa using ht
    simp [apply, nextValueNext, getFirstValue, ht', hgn, hg]

/-- C11 (the claim fails): `failsOnce` throws at its first invocation and would
return `1` at its second.  The failed call leaves `generator` completed, not as it
was, and the repeated call returns `undefined` without invoking the function again. -/
theorem failed_pull_is_not_retried :
    (run failsOnce [.call, .call] (createSequence failsOnce)).1 =
      [.error "boom", .value .undefined] ∧
    (createSequence failsOnce).state.generator = .suspendedStart ∧
    (run failsOnce [.call] (createSequence failsOnce)).2.state.generator = .completed ∧
    (run failsOnce [.call] (createSequence failsOnce)).2.state.invoked = 1 ∧
    (run failsOnce [.call, .call] (createSequence failsOnce)).2.state.invoked = 1 ∧
    failsOnce.result 1 = .ok (.val 1) :=
  ⟨by decide, by decide, by decide, by decide, by decide, rfl⟩

/-- An access that raises an error leaves the flags and the cached first value as they
were but completes `generator`; repeating it pulls nothing more. -/
theorem error_completes_generator (p : Producer α) (op : Op) (q : Sequence α)
    (e : Error) (hop : op.isAccess = true) (h : (perform p op q).1 = .error e) :
    (perform p op q).2.state.firstValue = q.state.firstValue ∧
    (perform p op q).2.state.firstValueTaken = q.state.firstValueTaken ∧
    (perform p op q).2.state.firstValueSent = q.state.firstValueSent ∧
    (perform p op q).2.state.generator = .completed ∧
    (perform p op (perform p op q).2).1 = retryOutcome op ∧
    (perform p op (perform p op q).2).2.state.invoked = (perform p op q).2.state.invoked := by
  have hf := generatorNext_frame p q.state
  cases op with
  | call =>
    have hthrow : (nextValueNext p .start q.state).1 = .throw e := by
      simp only [perform, apply] at h
      rcases hn : nextValueNext p .start q.state with ⟨r, ph1, s1⟩
      rw [hn] at h
      cases r <;> simp_all [Outcome.ofExcept]
    obtain ⟨-, hst, hg, hts⟩ := nextValueNext_throw p .start q.state e hthrow
    have hstate : (perform p .call q).2.state = (generatorNext p q.state).2 := by
      simp only [perform, apply_state, hst]
    have hcomp := generatorNext_throw_completed p q.state e hg
    have hretry := apply_completed p (generatorNext p q.state).2 hcomp
      (by rw [hf.2.1, hf.2.2]; exact hts rfl)
    refine ⟨by rw [hstate]; exact hf.1, by rw [hstate]; exact hf.2.1,
      by rw [hstate]; exact hf.2.2, by rw [hstate]; exact hcomp, ?_, ?_⟩
    · simp only [perform, apply_state, hst, hretry.1, Outcome.ofExcept, retryOutcome]
    · simp only [perform, apply_state, hst]
      rw [← apply_state, hretry.2.1]
  | value =>
    simp only [perform] at h ⊢
    by_cases ht : q.state.firstValueTaken = true
    · rw [getFirstValue_taken p _ ht] at h
      cases h
    · have ht' : q.state.firstValueTaken = false := by simpa using ht
      rcases hgn : generatorNext p q.state with ⟨r, s1⟩
      rw [hgn] at hf
      have hcompl : ∀ e1, r = .throw e1 → s1.generator = .completed := by
        intro e1 hr
        have := generatorNext_throw_completed p q.state e1 (by rw [hgn, hr])
        rw [hgn] at this
        exact this
      cases r with
      | yield v => simp [getFirstValue, ht', hgn, Outcome.ofExcept] at h
      | done => simp [getFirstValue, ht', hgn, Outcome.ofExcept] at h
      | throw e1 =>
        have hc := hcompl e1 rfl
        have ht1 : s1.firstValueTaken = false := hf.2.1.trans ht'
        have hg1 := generatorNext_completed p s1 hc
        simp [getFirstValue, ht', hgn, ht1, hg1, hc, Outcome.ofExcept, retryOutcome]
        exact ⟨hf.1, hf.2.2⟩
  | next i =>
    simp only [perform] at h ⊢
    cases hget : q.iterators.get? i with
    | none => rw [hget] at h; cases h
    | some ph =>
      rw [hget] at h
      simp only at h ⊢
      have hthrow : (nextValueNext p ph q.state).1 = .throw e := by
        rcases hn : (nextValueNext p ph q.state).1 with v | _ | e1
        · rw [hn] at h; cases h
        · rw [hn] at h; cases h
        · rw [hn] at h; simp only [Outcome.ofPull, Outcome.error.injEq] at h; rw [h]
      obtain ⟨hph, hst, hg, -⟩ := nextValueNext_throw p ph q.state e hthrow
      have hcomp := generatorNext_throw_completed p q.state e hg
      have hlt : i < q.iterators.length := by
        rw [List.get?_eq_some] at hget
        exact hget.1
      have hget2 : (q.iterators.set i (nextValueNext p ph q.state).2.1).get? i =
          some .finished := by
        rw [hph]
        simp [List.getElem?_set_self, hlt]
      rw [hst]
      refine ⟨hf.1, hf.2.1, hf.2.2, hcomp, ?_, ?_⟩
      · rw [hget2]
        simp [nextValueNext, Outcome.ofPull, retryOutcome]
      · rw [hget2]
        simp [nextValueNext]
  | iterator => cases hop
  | ret i => cases hop
  | set => cases hop
  | setPrototypeOf => cases hop

theorem pulls_isAccess (op : Op) (q : Sequence α) (h : pulls op q = true) :
    op.isAccess = true := by
  cases op <;> first | rfl | cases h

/-- An access that asks `generator` for a value passes the exception of a throwing
`generator.next()` on to its caller. -/
theorem perform_error_of_throw (p : Producer α) (op : Op) (q : Sequence α) (e : Error)
    (hop : pulls op q = true) (h : (generatorNext p q.state).1 = .throw e) :
    (perform p op q).1 = .error e := by
  rcases hg : generatorNext p q.state with ⟨r, s1⟩
  rw [hg] at h
  simp only at h
  subst h
  have hloop : (nextValueLoop p q.state).1 = .throw e := by simp [nextValueLoop, hg]
  have hstart : (!q.state.firstValueTaken || q.state.firstValueSent) = true →
      (nextValueNext p .start q.state).1 = .throw e := by
    intro h1
    by_cases ht : q.state.firstValueTaken = true
    · have hsent : q.state.firstValueSent = true := by simpa [ht] using h1
      simp [nextValueNext, nextValueFrom67, ht, hsent, hloop]
    · have ht1 : q.state.firstValueTaken = false := by simpa using ht
      simp [nextValueNext, getFirstValue, ht1, hg]
  cases op with
  | call =>
    have h1 := hstart hop
    simp only [perform, apply]
    rcases hn : nextValueNext p .start q.state with ⟨r, ph1, s2⟩
    rw [hn] at h1
    simp only at h1
    subst h1
    rfl
  | value =>
    have ht1 : q.state.firstValueTaken = false := by simpa [pulls] using hop
    simp [perform, getFirstValue, ht1, hg, Outcome.ofExcept]
  | next i =>
    simp only [pulls] at hop
    simp only [perform]
    cases hget : q.iterators.get? i with
    | none => rw [hget] at hop; cases hop
    | some ph =>
      rw [hget] at hop
      have h1 : (nextValueNext p ph q.state).1 = .throw e := by
        cases ph with
        | start => exact hstart hop
        | yield65 =>
          have hsent : q.state.firstValueSent = true := hop
          simp [nextValueNext, nextValueFrom67, hsent, hloop]
        | yield70 => simpa [nextValueNext] using hloop
        | yield74 => simpa [nextValueNext] using hloop
        | finished => cases hop
      simp only [h1, Outcome.ofPull]
  | iterator => cases hop
  | ret i => cases hop
  | set => cases hop
  | setPrototypeOf => cases hop

/-- C11 (amended): for every producer, every state and every access (call, iterator
step, first-value read) that asks `generator` for a value while the pull throws, the
error reaches the caller and leaves the flags and the cached first value as they
were, but completes `generator`; repeating the same access pulls nothing more (the
producer is not invoked again) and answers `undefined` (call, first-value read) or the
end of the iteration (iterator step). -/
theorem failed_pull_completes_generator (p : Producer α) (op : Op) (q : Sequence α)
    (e : Error) (hop : pulls op q = true) (h : (generatorNext p q.state).1 = .throw e) :
    (perform p op q).1 = .error e ∧
    (perform p op q).2.state.firstValue = q.state.firstValue ∧
    (perform p op q).2.state.firstValueTaken = q.state.firstValueTaken ∧
    (perform p op q).2.state.firstValueSent = q.state.firstValueSent ∧
    (perform p op q).2.state.generator = .completed ∧
    (perform p op (perform p op q).2).1 = retryOutcome op ∧
    (perform p op (perform p op q).2).2.state.invoked = (perform p op q).2.state.invoked :=
  have herr := perform_error_of_throw p op q e hop h
  ⟨herr, error_completes_generator p op q e (pulls_isAccess op q hop) herr⟩

theorem failed_pull_completes_generator_witness :
    (pulls .call (createSequence failsOnce) = true ∧
      (generatorNext failsOnce (createSequence failsOnce).state).1 = .throw "boom" ∧
      (run failsOnce [.call, .call] (createSequence failsOnce)).1 =
        [.error "boom", .value .undefined]) ∧
    ((perform failsOnce .call (createSequence failsOnce)).1 = .error "boom" ∧
      (perform failsOnce .call (createSequence failsOnce)).2.state.firstValue =
        (createSequence failsOnce).state.firstValue ∧
      (perform failsOnce .call (createSequence failsOnce)).2.state.firstValueTaken =
        (createSequence failsOnce).state.firstValueTaken ∧
      (perform failsOnce .call (createSequence failsOnce)).2.state.firstValueSent =
        (createSequence failsOnce).state.firstValueSent ∧
      (perform failsOnce .call (createSequence failsOnce)).2.state.generator = .completed ∧
      (perform failsOnce .call (perform failsOnce .call (createSequence failsOnce)).2).1 =
        retryOutcome .call ∧
      (perform failsOnce .call
          (perform failsOnce .call (createSequence failsOnce)).2).2.state.invoked =
        (perform failsOnce .call (createSequence failsOnce)).2.state.invoked) ∧
    (pulls .value (createSequence failsOnce) = true ∧
      (perform failsOnce .value (createSequence failsOnce)).1 = .error "boom" ∧
      (perform failsOnce .value (perform failsOnce .value (createSequence failsOnce)).2).1 =
        .value .undefined) ∧
    (pulls (.next 0) (run failsSecond [.iterator, .next 0] (createSequence failsSecond)).2 =
        true ∧
      (run failsSecond [.iterator, .next 0] (createSequence failsSecond)).1 =
        [.unit, .value (.val 0)] ∧
      (perform failsSecond (.next 0)
        (run failsSecond [.iterator, .next 0] (createSequence failsSecond)).2).1 =
        .error "boom" ∧
      (perform failsSecond (.next 0)
        (perform failsSecond (.next 0)
          (run failsSecond [.iterator, .next 0] (createSequence failsSecond)).2).2).1 =
        .done) :=
  ⟨⟨by decide, by decide, by decide⟩,
    failed_pull_completes_generator failsOnce .call (createSequence failsOnce) "boom"
      (by decide) (by decide),
    ⟨by decide,
      (failed_pull_completes_generator failsOnce .value (createSequence failsOnce) "boom"
        (by decide) (by decide)).1,
      (failed_pull_completes_generator failsOnce .value (createSequence failsOnce) "boom"
        (by decide) (by decide)).2.2.2.2.2.1⟩,
    ⟨by decide, by decide,
      (failed_pull_completes_generator failsSecond (.next 0)
        (run failsSecond [.iterator, .next 0] (createSequence failsSecond)).2 "boom"
        (by decide) (by decide)).1,
      (failed_pull_completes_generator failsSecond (.next 0)
        (run failsSecond [.iterator, .next 0] (createSequence failsSecond)).2 "boom"
        (by decide) (by decide)).2.2.2.2.2.1⟩⟩

/-! ## What an operation does to `generator` -/

theorem getFirstValue_core (p : Producer α) (s : State α) :
    (s.firstValueTaken = true ∧ (getFirstValue p s).2 = s) ∨
    (s.firstValueTaken = false ∧ SameCore (getFirstValue p s).2 (generatorNext p s).2) := by
  by_cases ht : s.firstValueTaken = true
  · exact Or.inl ⟨ht, by rw [getFirstValue_taken p s ht]⟩
  · have ht' : s.firstValueTaken = false := by simpa using ht
    right
    refine ⟨ht', ?_⟩
    simp only [getFirstValue, ht']
    rcases generatorNext p s with ⟨r, s1⟩
    cases r <;> exact ⟨rfl, rfl, rfl⟩

theorem nextValueLoop_core (p : Producer α) (s : State α) :
    (nextValueLoop p s).2.2 = (generatorNext p s).2 := by
  unfold nextValueLoop
  rcases generatorNext p s with ⟨r, s1⟩
  cases r <;> rfl

theorem nextValueNext_core (p : Producer α) (ph : Phase) (s : State α) :
    SameCore (nextValueNext p ph s).2.2 s ∨
      SameCore (nextValueNext p ph s).2.2 (generatorNext p s).2 := by
  have h67 : SameCore (nextValueFrom67 p s).2.2 s ∨
      SameCore (nextValueFrom67 p s).2.2 (generatorNext p s).2 := by
    unfold nextValueFrom67
    split
    · exact Or.inl ⟨rfl, rfl, rfl⟩
    · rw [nextValueLoop_core]; exact Or.inr ⟨rfl, rfl, rfl⟩
  cases ph with
  | start =>
    by_cases ht : s.firstValueTaken = true
    · simp only [nextValueNext, ht]; exact h67
    · have ht' : s.firstValueTaken = false := by simpa using ht
      right
      simp only [nextValueNext, getFirstValue, ht']
      rcases generatorNext p s with ⟨r, s1⟩
      cases r <;> exact ⟨rfl, rfl, rfl⟩
  | yield65 => exact h67
  | yield70 => right; rw [show nextValueNext p .yield70 s = nextValueLoop p s from rfl,
      nextValueLoop_core]; exact ⟨rfl, rfl, rfl⟩
  | yield74 => right; rw [show nextValueNext p .yield74 s = nextValueLoop p s from rfl,
      nextValueLoop_core]; exact ⟨rfl, rfl, rfl⟩
  | finished => exact Or.inl ⟨rfl, rfl, rfl⟩

/-- An operation leaves the part of the state that `generator` owns as it is, or as
one `generator.next()` makes it, or only completes `generator`. -/
theorem perform_core (p : Producer α) (op : Op) (q : Sequence α) :
    SameCore (perform p op q).2.state q.state ∨
    SameCore (perform p op q).2.state (generatorNext p q.state).2 ∨
    ((perform p op q).2.state.generator = .completed ∧
      (perform p op q).2.state.pulled = q.state.pulled ∧
      (perform p op q).2.state.invoked = q.state.invoked) := by
  cases op with
  | call =>
    simp only [perform, apply_state]
    rcases nextValueNext_core p .start q.state with h | h
    · exact Or.inl h
    · exact Or.inr (Or.inl h)
  | value =>
    simp only [perform]
    rcases getFirstValue_core p q.state with ⟨-, h⟩ | ⟨-, h⟩
    · rw [h]; exact Or.inl ⟨rfl, rfl, rfl⟩
    · exact Or.inr (Or.inl h)
  | iterator => exact Or.inl ⟨rfl, rfl, rfl⟩
  | next i =>
    simp only [perform]
    cases q.iterators.get? i with
    | none => exact Or.inl ⟨rfl, rfl, rfl⟩
    | some ph =>
      rcases nextValueNext_core p ph q.state with h | h
      · exact Or.inl h
      · exact Or.inr (Or.inl h)
  | ret i =>
    simp only [perform]
    cases q.iterators.get? i with
    | none => exact Or.inl ⟨rfl, rfl, rfl⟩
    | some ph =>
      cases ph
      · exact Or.inl ⟨rfl, rfl, rfl⟩
      · exact Or.inl ⟨rfl, rfl, rfl⟩
      · exact Or.inl ⟨rfl, rfl, rfl⟩
      · exact Or.inr (Or.inr ⟨rfl, rfl, rfl⟩)
      · exact Or.inl ⟨rfl, rfl, rfl⟩
  | set => exact Or.inl ⟨rfl, rfl, rfl⟩
  | setPrototypeOf => exact Or.inl ⟨rfl, rfl, rfl⟩

/-! ## The invocation of a generator function -/

theorem generatorNext_invoked_generatorFunction (body : Nat → Pull α) (s : State α) :
    (generatorNext (ofGeneratorFunction body) s).2.invoked =
      if s.generator = .suspendedStart then s.invoked + 1 else s.invoked := by
  have hi : invokesGenerator (ofGeneratorFunction body) = true := rfl
  have hc : callsProducer (ofGeneratorFunction body) = false := rfl
  have ho : producerIterator (ofGeneratorFunction body) = .ok (some body) := rfl
  rcases s with ⟨fv, tk, st, g, pl, inv⟩
  cases g
  · simp only [generatorNext, generatorResume, ho, hi, hc]
    split <;> simp
  · simp only [generatorNext, generatorResume, hc]
    split <;> simp
  · simp [generatorNext]

theorem perform_lazyOnce (body : Nat → Pull α) (op : Op) (q : Sequence α)
    (h : LazyOnce q) :
    LazyOnce (perform (ofGeneratorFunction body) op q).2 ∧
    ((∃ v, (perform (ofGeneratorFunction body) op q).1 = .value v) →
      (perform (ofGeneratorFunction body) op q).2.state.generator ≠ .suspendedStart) := by
  have hstart := generatorNext_started (ofGeneratorFunction body) q.state
  have hinv := generatorNext_invoked_generatorFunction body q.state
  rcases h with ⟨hg, hi, ht, hit⟩ | ⟨hg, hi⟩
  · rw [hg, hi] at hinv
    simp only [if_true] at hinv
    have hpull : ∀ s1 : State α, SameCore s1 (generatorNext (ofGeneratorFunction body) q.state).2 →
        s1.generator ≠ .suspendedStart ∧ s1.invoked = 1 := by
      intro s1 hs1
      exact ⟨by rw [hs1.1]; exact hstart, by rw [hs1.2.2]; exact hinv⟩
    have hnext : SameCore (nextValueNext (ofGeneratorFunction body) .start q.state).2.2
        (generatorNext (ofGeneratorFunction body) q.state).2 := by
      simp only [nextValueNext, getFirstValue, ht]
      rcases generatorNext (ofGeneratorFunction body) q.state with ⟨r, s1⟩
      cases r <;> exact ⟨rfl, rfl, rfl⟩
    cases op with
    | call =>
      have := hpull _ hnext
      simp only [perform, apply_state]
      exact ⟨Or.inr this, fun _ => this.1⟩
    | value =>
      rcases getFirstValue_core (ofGeneratorFunction body) q.state with ⟨h1, -⟩ | ⟨-, h1⟩
      · rw [ht] at h1; cases h1
      · have := hpull _ h1
        simp only [perform]
        exact ⟨Or.inr this, fun _ => this.1⟩
    | iterator =>
      refine ⟨Or.inl ⟨hg, hi, ht, ?_⟩, fun ⟨v, hv⟩ => by cases hv⟩
      intro ph hph
      simp only [perform, List.mem_append, List.mem_singleton] at hph
      rcases hph with h1 | h1
      · exact hit ph h1
      · exact Or.inl h1
    | next i =>
      simp only [perform]
      cases hget : q.iterators.get? i with
      | none => exact ⟨Or.inl ⟨hg, hi, ht, hit⟩, fun ⟨v, hv⟩ => by cases hv⟩
      | some ph =>
        rcases hit ph (List.get?_mem hget) with h1 | h1
        · subst h1
          have := hpull _ hnext
          exact ⟨Or.inr this, fun _ => this.1⟩
        · subst h1
          refine ⟨Or.inl ⟨hg, hi, ht, mem_set_of_forall hit i (Or.inr rfl)⟩, ?_⟩
          intro ⟨v, hv⟩
          simp [nextValueNext, Outcome.ofPull] at hv
    | ret i =>
      simp only [perform]
      cases hget : q.iterators.get? i with
      | none => exact ⟨Or.inl ⟨hg, hi, ht, hit⟩, fun ⟨v, hv⟩ => by cases hv⟩
      | some ph =>
        rcases hit ph (List.get?_mem hget) with h1 | h1 <;> subst h1 <;>
          exact ⟨Or.inl ⟨hg, hi, ht, mem_set_of_forall hit i (Or.inr rfl)⟩,
            fun ⟨v, hv⟩ => by cases hv⟩
    | set => exact ⟨Or.inl ⟨hg, hi, ht, hit⟩, fun ⟨v, hv⟩ => by cases hv⟩
    | setPrototypeOf => exact ⟨Or.inl ⟨hg, hi, ht, hit⟩, fun ⟨v, hv⟩ => by cases hv⟩
  · simp only [hg, if_false] at hinv
    have key : (perform (ofGeneratorFunction body) op q).2.state.generator ≠ .suspendedStart ∧
        (perform (ofGeneratorFunction body) op q).2.state.invoked = 1 := by
      rcases perform_core (ofGeneratorFunction body) op q with h1 | h1 | h1
      · exact ⟨by rw [h1.1]; exact hg, by rw [h1.2.2]; exact hi⟩
      · exact ⟨by rw [h1.1]; exact hstart, by rw [h1.2.2, hinv]; exact hi⟩
      · exact ⟨by rw [h1.1]; simp, by rw [h1.2.2]; exact hi⟩
    exact ⟨Or.inr key, fun _ => key.1⟩

theorem run_lazyOnce (body : Nat → Pull α) (ops : List Op) :
    ∀ q : Sequence α, LazyOnce q →
      LazyOnce (run (ofGeneratorFunction body) ops q).2 ∧
      ((q.state.generator ≠ .suspendedStart ∨
          ∃ v, Outcome.value v ∈ (run (ofGeneratorFunction body) ops q).1) →
        (run (ofGeneratorFunction body) ops q).2.state.generator ≠ .suspendedStart) := by
  induction ops with
  | nil =>
    intro q h
    refine ⟨h, ?_⟩
    rintro (h1 | ⟨v, hv⟩)
    · exact h1
    · cases hv
  | cons o ops ih =>
    intro q h
    obtain ⟨h1, h2⟩ := perform_lazyOnce body o q h
    obtain ⟨h3, h4⟩ := ih _ h1
    refine ⟨h3, ?_⟩
    intro h5
    apply h4
    rcases h5 with h5 | ⟨v, hv⟩
    · left
      rcases perform_core (ofGeneratorFunction body) o q with h9 | h9 | h9
      · rw [h9.1]; exact h5
      · rw [h9.1]; exact generatorNext_started _ _
      · rw [h9.1]; simp
    · simp only [run, List.mem_cons] at hv
      rcases hv with hv | hv
      · exact Or.inl (h2 ⟨v, hv.symm⟩)
      · exact Or.inr ⟨v, hv⟩

/-- C12 (the claim fails): right after `createSequence`, with no access made, a
generator function has not been invoked at all. -/
theorem generator_function_not_invoked_at_creation :
    (run (ofGeneratorFunction (listScript [Value.val 1, Value.val 2])) []
        (createSequence (ofGeneratorFunction (listScript [Value.val 1, Value.val 2])))).2.state.invoked
      = 0 := by
  decide

/-- C12 (amended): for every generator function, `createSequence` itself does not
invoke it; after any series of operations it has been invoked at most once, and exactly
once as soon as one operation has returned or delivered a value: the first pull invokes
it, no later access invokes it again. -/
theorem generator_function_invoked_once_lazily (body : Nat → Pull α) (ops : List Op) :
    (createSequence (ofGeneratorFunction body)).state.invoked = 0 ∧
    (run (ofGeneratorFunction body) ops
        (createSequence (ofGeneratorFunction body))).2.state.invoked ≤ 1 ∧
    ((∃ v, Outcome.value v ∈
        (run (ofGeneratorFunction body) ops (createSequence (ofGeneratorFunction body))).1) →
      (run (ofGeneratorFunction body) ops
        (createSequence (ofGeneratorFunction body))).2.state.invoked = 1) := by
  have hfresh : LazyOnce (createSequence (ofGeneratorFunction body)) :=
    Or.inl ⟨rfl, rfl, rfl, fun ph hph => by cases hph⟩
  obtain ⟨h1, h2⟩ := run_lazyOnce body ops _ hfresh
  refine ⟨rfl, ?_, ?_⟩
  · rcases h1 with ⟨-, h, -, -⟩ | ⟨-, h⟩ <;> omega
  · intro hv
    have := h2 (Or.inr hv)
    rcases h1 with ⟨h, -, -, -⟩ | ⟨-, h⟩
    · exact absurd h this
    · exact h

/-! ## Unsupported and empty producers -/

theorem getFirstValue_error (p : Producer α) (s : State α) (e : Error)
    (h : (getFirstValue p s).1 = .error e) : (generatorNext p s).1 = .throw e := by
  unfold getFirstValue at h
  split at h
  · rcases hg : generatorNext p s with ⟨r, s1⟩
    rw [hg] at h
    cases r <;> simp_all
  · cases h

/-- When `generator.next()` never throws, the only error an operation can raise is the
one of a rejected mutation. -/
theorem perform_error_of_no_throw (p : Producer α)
    (hp : ∀ s e, (generatorNext p s).1 ≠ .throw e) (op : Op) (q : Sequence α) (e : Error)
    (h : (perform p op q).1 = .error e) : e = "This operation is not allowed" := by
  cases op with
  | call =>
    exfalso
    simp only [perform, apply] at h
    rcases hn : nextValueNext p .start q.state with ⟨r, ph1, s1⟩
    rw [hn] at h
    cases r with
    | yield v => cases h
    | done => cases h
    | throw e1 =>
      have := (nextValueNext_throw p .start q.state e1 (by rw [hn])).2.2.1
      exact hp _ _ this
  | value =>
    exfalso
    simp only [perform] at h
    rcases hn : (getFirstValue p q.state).1 with e1 | v
    · exact hp _ _ (getFirstValue_error p q.state e1 hn)
    · rw [hn] at h; cases h
  | iterator => cases h
  | next i =>
    exfalso
    simp only [perform] at h
    cases hget : q.iterators.get? i with
    | none => rw [hget] at h; cases h
    | some ph =>
      rw [hget] at h
      rcases hn : (nextValueNext p ph q.state).1 with v | _ | e1
      · simp only [hn] at h; cases h
      · simp only [hn] at h; cases h
      · exact hp _ _ (nextValueNext_throw p ph q.state e1 hn).2.2.1
  | ret i =>
    simp only [perform] at h
    cases hget : q.iterators.get? i with
    | none => rw [hget] at h; cases h
    | some ph => rw [hget] at h; cases h
  | set =>
    simp only [perform, notAllowed, Outcome.ofExcept, Outcome.error.injEq] at h
    exact h.symm
  | setPrototypeOf =>
    simp only [perform, notAllowed, Outcome.ofExcept, Outcome.error.injEq] at h
    exact h.symm

theorem run_error_of_no_throw (p : Producer α)
    (hp : ∀ s e, (generatorNext p s).1 ≠ .throw e) (ops : List Op) :
    ∀ (q : Sequence α) (e : Error), Outcome.error e ∈ (run p ops q).1 →
      e = "This operation is not allowed" := by
  induction ops with
  | nil => intro q e h; cases h
  | cons o ops ih =>
    intro q e h
    simp only [run, List.mem_cons] at h
    rcases h with h | h
    · exact perform_error_of_no_throw p hp o q e h.symm
    · exact ih _ e h

theorem generatorNext_unsupported (p : Producer α) (hu : specVariant p = .unsupported)
    (hn : p.kind ≠ .nullish) (hnull : p.prototype ≠ .null) (hiter : p.prototype ≠ .iterable)
    (s : State α) : (generatorNext p s).1 = .done := by
  have ho : producerIterator p = .ok none ∧ ∀ k, loopPull p k = .done := by
    rcases p with ⟨kind, it, proto, inv, len, item, result⟩
    cases kind <;> cases it <;> cases proto <;> cases len <;>
      simp [loopPull, producerIterator, specVariant, isFunction] at hu hn hnull hiter ⊢
  rcases s with ⟨fv, tk, st, g, pl, inv⟩
  cases g
  · by_cases hi : invokesGenerator p = true <;>
      simp [generatorNext, generatorResume, ho.1, ho.2, hi]
  · simp [generatorNext, generatorResume, ho.2]
  · simp [generatorNext]

/-- C16 (the claim fails): `null` matches none of the supported shapes, and the first
access of its sequence, here a first-value read or a call, throws a `TypeError`.  So
do the accesses of the sequences of `{prototype: null}` and `{prototype: []}`, objects
that match none of the supported shapes either: line 29 reads a property of `null`,
respectively line 31 invokes an object that is no function. -/
theorem null_producer_throws :
    specVariant nullProducer = .unsupported ∧
    (perform nullProducer .value (createSequence nullProducer)).1 = .error "TypeError" ∧
    (perform nullProducer .call (createSequence nullProducer)).1 = .error "TypeError" ∧
    specVariant (objectWith .null none) = .unsupported ∧
    (perform (objectWith .null none) .call (createSequence (objectWith .null none))).1 =
      .error "TypeError" ∧
    specVariant (objectWith .iterable none) = .unsupported ∧
    (perform (objectWith .iterable none) .call
      (createSequence (objectWith .iterable none))).1 = .error "TypeError" := by
  decide

/-- C16 (amended): for every input other than `null` and `undefined` that matches none
of the supported shapes and whose `prototype` property is neither `null` nor an object
carrying an iterator method, `generator` yields no element in any state, and no access
of the sequence raises an error: the only error a series of operations can meet is the
one of a rejected mutation. -/
theorem unsupported_producer_is_empty (p : Producer α) (hu : specVariant p = .unsupported)
    (hn : p.kind ≠ .nullish) (hnull : p.prototype ≠ .null) (hiter : p.prototype ≠ .iterable)
    (ops : List Op) (s : State α) :
    (generatorNext p s).1 = .done ∧
    ∀ e, Outcome.error e ∈ (run p ops (createSequence p)).1 →
      e = "This operation is not allowed" := by
  have hd := generatorNext_unsupported p hu hn hnull hiter
  refine ⟨hd s, run_error_of_no_throw p ?_ ops _⟩
  intro s1 e h
  rw [hd s1] at h
  cases h

theorem unsupported_producer_is_empty_witness :
    specVariant plainObject = .unsupported ∧ plainObject.kind ≠ .nullish ∧
    plainObject.prototype ≠ .null ∧ plainObject.prototype ≠ .iterable ∧
    (run plainObject [.value, .call, .iterator, .next 0] (createSequence plainObject)).1 =
      [.value .undefined, .value .undefined, .unit, .done] ∧
    ((generatorNext plainObject (createSequence plainObject).state).1 = .done ∧
      ∀ e, Outcome.error e ∈
          (run plainObject [.value, .call, .iterator, .next 0] (createSequence plainObject)).1 →
        e = "This operation is not allowed") :=
  ⟨by decide, by decide, by decide, by decide, by decide,
    unsupported_producer_is_empty plainObject (by decide) (by decide) (by decide) (by decide)
      [.value, .call, .iterator, .next 0] (createSequence plainObject).state⟩

/-- C17: for every empty finite producer (empty array, array-like object of length 0,
iterable or generator function that yields nothing), the first full iteration of a
fresh sequence delivers exactly one value, `undefined`; a first-value read, before or
after it, returns `undefined`; and a second full iteration delivers nothing. -/
theorem empty_producer_delivers_undefined (sh : Shape) (fuel : Nat) (hfuel : 2 ≤ fuel) :
    ∃ r1 r2,
      iterateAll (finiteProducer sh ([] : List (Value α))) fuel
          (createSequence (finiteProducer sh ([] : List (Value α)))).state = some r1 ∧
        r1.delivered = [.undefined] ∧ r1.error = none ∧
        (getFirstValue (finiteProducer sh ([] : List (Value α)))
          (createSequence (finiteProducer sh ([] : List (Value α)))).state).1 =
            .ok .undefined ∧
        (getFirstValue (finiteProducer sh ([] : List (Value α))) r1.state).1 =
          .ok .undefined ∧
        iterateAll (finiteProducer sh ([] : List (Value α))) fuel r1.state = some r2 ∧
        r2.delivered = [] ∧ r2.error = none := by
  obtain ⟨m, rfl⟩ : ∃ m, fuel = m + 2 := ⟨fuel - 2, by omega⟩
  cases sh <;> exact ⟨_, _, rfl, rfl, rfl, rfl, rfl, rfl, rfl, rfl⟩

theorem empty_producer_delivers_undefined_witness :
    2 ≤ 2 ∧
    ∃ r1 r2,
      iterateAll (finiteProducer .array ([] : List (Value Nat))) 2
          (createSequence (finiteProducer .array ([] : List (Value Nat)))).state = some r1 ∧
        r1.delivered = [.undefined] ∧ r1.error = none ∧
        (getFirstValue (finiteProducer .array ([] : List (Value Nat)))
          (createSequence (finiteProducer .array ([] : List (Value Nat)))).state).1 =
            .ok .undefined ∧
        (getFirstValue (finiteProducer .array ([] : List (Value Nat))) r1.state).1 =
          .ok .undefined ∧
        iterateAll (finiteProducer .array ([] : List (Value Nat))) 2 r1.state = some r2 ∧
        r2.delivered = [] ∧ r2.error = none :=
  ⟨by decide, empty_producer_delivers_undefined .array 2 (by decide)⟩

/-! ## Drained sequences -/

theorem generatorResume_fst (p : Producer α) (s : State α) :
    (generatorResume p s).1 = loopPull p s.pulled := by
  unfold generatorResume
  rcases hl : loopPull p s.pulled with v | _ | e <;> simp

theorem generatorNext_fst_congr (p : Producer α) (s1 s2 : State α)
    (hg : s1.generator = s2.generator) (hp : s1.pulled = s2.pulled) :
    (generatorNext p s1).1 = (generatorNext p s2).1 := by
  rcases s1 with ⟨fv1, tk1, st1, g1, pl1, inv1⟩
  rcases s2 with ⟨fv2, tk2, st2, g2, pl2, inv2⟩
  simp only at hg hp
  subst hg hp
  cases g1
  · simp only [generatorNext]
    split
    · rfl
    · by_cases hi : invokesGenerator p = true <;> simp [hi, generatorResume_fst]
  · simp only [generatorNext, generatorResume_fst]
  · rfl

theorem generatorNext_done_again (p : Producer α) (s : State α)
    (h : (generatorNext p s).1 = .done) :
    (generatorNext p (generatorNext p s).2).1 = .done := by
  have hc := generatorNext_not_yield_completed p s (fun v hv => by rw [h] at hv; cases hv)
  rw [generatorNext_completed p _ hc]

theorem nextValueLoop_fst (p : Producer α) (s : State α) :
    (nextValueLoop p s).1 = (generatorNext p s).1 := by
  unfold nextValueLoop
  rcases generatorNext p s with ⟨r, s1⟩
  cases r <;> rfl

/-- On a drained sequence every iterator step reports the end. -/
theorem nextValueNext_drained (p : Producer α) (ph : Phase) (s : State α)
    (h : Drained p s) : (nextValueNext p ph s).1 = .done := by
  obtain ⟨ht, hs, hd⟩ := h
  have hl : (nextValueLoop p s).1 = .done := by rw [nextValueLoop_fst, hd]
  cases ph <;> simp [nextValueNext, nextValueFrom67, ht, hs, hl]

/-- A drained sequence stays drained under every operation; its calls return
`undefined`, its iterator steps report the end, its first-value reads return the
cached first value, which stays as it is. -/
theorem perform_drained (p : Producer α) (op : Op) (q : Sequence α)
    (h : Drained p q.state) :
    Drained p (perform p op q).2.state ∧
    (perform p op q).2.state.firstValue = q.state.firstValue ∧
    (op = .call → (perform p op q).1 = .value .undefined) ∧
    (op = .value → (perform p op q).1 = .value q.state.firstValue) ∧
    (∀ j, op = .next j → (perform p op q).1 = .done ∨ (perform p op q).1 = .unit) := by
  have hm := perform_flags p op q
  obtain ⟨ht, hs, hd⟩ := h
  have hdr : Drained p q.state := ⟨ht, hs, hd⟩
  refine ⟨⟨hm.1 ht, hm.2.1 hs, ?_⟩, hm.2.2 ht, ?_, ?_, ?_⟩
  · rcases perform_core p op q with h1 | h1 | h1
    · rw [generatorNext_fst_congr p _ _ h1.1 h1.2.1]; exact hd
    · rw [generatorNext_fst_congr p _ _ h1.1 h1.2.1]; exact generatorNext_done_again p _ hd
    · rw [generatorNext_completed p _ h1.1]
  · intro hop
    subst hop
    have hn := nextValueNext_drained p .start q.state hdr
    simp only [perform, apply]
    rcases hn1 : nextValueNext p .start q.state with ⟨r, ph1, s1⟩
    rw [hn1] at hn
    simp only at hn
    subst hn
    rfl
  · intro hop
    subst hop
    simp only [perform]
    rw [getFirstValue_taken p _ ht]
    rfl
  · intro j hop
    subst hop
    simp only [perform]
    cases q.iterators.get? j with
    | none => exact Or.inr rfl
    | some ph =>
      left
      simp only [nextValueNext_drained p ph q.state hdr]
      rfl

/-- Every series of operations on a drained sequence: calls return `undefined`,
first-value reads return the cached first value, no iterator step delivers a value. -/
theorem run_drained (p : Producer α) (ops : List Op) :
    ∀ q : Sequence α, Drained p q.state →
      Drained p (run p ops q).2.state ∧
      answers .call ops (run p ops q).1 =
        List.replicate (ops.count .call) (.value .undefined) ∧
      answers .value ops (run p ops q).1 =
        List.replicate (ops.count .value) (.value q.state.firstValue) ∧
      ∀ j, ∀ o ∈ answers (.next j) ops (run p ops q).1, o = .done ∨ o = .unit := by
  induction ops with
  | nil =>
    intro q h
    exact ⟨h, rfl, rfl, fun j o ho => by cases ho⟩
  | cons op ops ih =>
    intro q h
    obtain ⟨h1, h2, h3, h4, h5⟩ := perform_drained p op q h
    obtain ⟨i1, i2, i3, i4⟩ := ih _ h1
    rw [h2] at i3
    refine ⟨i1, ?_, ?_, ?_⟩
    · by_cases hop : op = .call
      · subst hop
        simp only [run, answers, if_true, i2, h3 rfl, List.count_cons_self,
          List.replicate_succ]
      · simp only [run, answers, if_neg hop, i2, List.count_cons_of_ne (Ne.symm hop)]
    · by_cases hop : op = .value
      · subst hop
        simp only [run, answers, if_true, i3, h4 rfl, List.count_cons_self,
          List.replicate_succ]
      · simp only [run, answers, if_neg hop, i3, List.count_cons_of_ne (Ne.symm hop)]
    · intro j o ho
      by_cases hop : op = .next j
      · subst hop
        simp only [run, answers, if_true, List.mem_cons] at ho
        rcases ho with ho | ho
        · rw [ho]; exact h5 j rfl
        · exact i4 j o ho
      · simp only [run, answers, if_neg hop] at ho
        exact i4 j o ho

/-- A full iteration of a drained sequence delivers nothing. -/
theorem iterateAll_drained (p : Producer α) (fuel : Nat) (s : State α) (h : Drained p s) :
    (iterateAll p (fuel + 1) s).map (fun r => (r.delivered, r.error)) = some ([], none) := by
  have hn := nextValueNext_drained p .start s h
  simp only [iterateAll, forOf]
  rcases hn1 : nextValueNext p .start s with ⟨r, ph1, s1⟩
  rw [hn1] at hn
  simp only at hn
  subst hn
  rfl

/-- C19: take any producer and any series of operations on its fresh sequence.  If
the `i`-th iterator is then suspended on a value pulled in the advancing phase (at the
`yield` of line 74), leaving it early completes the shared `generator`: in whatever
follows, every call returns `undefined`, no iterator step delivers a value and a full
iteration delivers nothing, whatever elements the producer still has.  If it is
suspended on the first value of the traversal (at the `yield` of line 65 or 70),
leaving it early changes nothing in the state, so the next call returns what it would
have returned without the exit. -/
theorem early_exit_closes_generator (p : Producer α) (ops : List Op) (i : Nat)
    (rest : List Op) (fuel : Nat) :
    ((run p ops (createSequence p)).2.iterators.get? i = some .yield74 →
      (perform p (.ret i) (run p ops (createSequence p)).2).2.state.generator = .completed ∧
      answers .call rest
          (run p rest (perform p (.ret i) (run p ops (createSequence p)).2).2).1 =
        List.replicate (rest.count .call) (.value .undefined) ∧
      (∀ j, ∀ o ∈ answers (.next j) rest
          (run p rest (perform p (.ret i) (run p ops (createSequence p)).2).2).1,
        o = .done ∨ o = .unit) ∧
      (iterateAll p (fuel + 1)
          (run p rest (perform p (.ret i) (run p ops (createSequence p)).2).2).2.state).map
        (fun r => (r.delivered, r.error)) = some ([], none)) ∧
    (((run p ops (createSequence p)).2.iterators.get? i = some .yield65 ∨
        (run p ops (createSequence p)).2.iterators.get? i = some .yield70) →
      (perform p (.ret i) (run p ops (createSequence p)).2).2.state =
        (run p ops (createSequence p)).2.state ∧
      (perform p .call (perform p (.ret i) (run p ops (createSequence p)).2).2).1 =
        (perform p .call (run p ops (createSequence p)).2).1) := by
  have hc := run_coherent p ops _ (coherent_createSequence p)
  constructor
  · intro hph
    have hts := hc.2 _ (List.get?_mem hph)
    rcases hts with h | h | h
    · cases h
    · cases h
    · have hst : (perform p (.ret i) (run p ops (createSequence p)).2).2.state =
          generatorReturn (run p ops (createSequence p)).2.state := by
        simp only [perform, hph, nextValueReturn]
      have hd : Drained p (perform p (.ret i) (run p ops (createSequence p)).2).2.state := by
        rw [hst]
        exact ⟨h.1, h.2, by rw [generatorNext_completed p _ rfl]⟩
      obtain ⟨d1, d2, -, d4⟩ := run_drained p rest _ hd
      exact ⟨by rw [hst]; rfl, d2, d4, iterateAll_drained p fuel _ d1⟩
  · intro hph
    have hst : (perform p (.ret i) (run p ops (createSequence p)).2).2.state =
        (run p ops (createSequence p)).2.state := by
      rcases hph with h | h <;> simp only [perform, h, nextValueReturn]
    refine ⟨hst, ?_⟩
    show Outcome.ofExcept (apply p _).1 = Outcome.ofExcept (apply p _).1
    rw [hst]

theorem early_exit_closes_generator_witness :
    (run (ofArray [Value.val 1, .val 2, .val 3]) [.iterator, .next 0, .next 0]
        (createSequence (ofArray [Value.val 1, .val 2, .val 3]))).2.iterators.get? 0 =
      some .yield74 ∧
    (run (ofArray [Value.val 1, .val 2, .val 3]) [.iterator, .next 0, .next 0, .ret 0, .call]
        (createSequence (ofArray [Value.val 1, .val 2, .val 3]))).1 =
      [.unit, .value (.val 1), .value (.val 2), .done, .value .undefined] ∧
    (run (ofArray [Value.val 1, .val 2, .val 3]) [.iterator, .next 0]
        (createSequence (ofArray [Value.val 1, .val 2, .val 3]))).2.iterators.get? 0 =
      some .yield65 ∧
    (run (ofArray [Value.val 1, .val 2, .val 3]) [.iterator, .next 0, .ret 0, .call]
        (createSequence (ofArray [Value.val 1, .val 2, .val 3]))).1 =
      [.unit, .value (.val 1), .done, .value (.val 2)] ∧
    answers .call [.call, .iterator, .next 1]
        (run (ofArray [Value.val 1, .val 2, .val 3]) [.call, .iterator, .next 1]
          (perform (ofArray [Value.val 1, .val 2, .val 3]) (.ret 0)
            (run (ofArray [Value.val 1, .val 2, .val 3]) [.iterator, .next 0, .next 0]
              (createSequence (ofArray [Value.val 1, .val 2, .val 3]))).2).2).1 =
      List.replicate ([Op.call, .iterator, .next 1].count .call) (.value .undefined) ∧
    (perform (ofArray [Value.val 1, .val 2, .val 3]) (.ret 0)
        (run (ofArray [Value.val 1, .val 2, .val 3]) [.iterator, .next 0]
          (createSequence (ofArray [Value.val 1, .val 2, .val 3]))).2).2.state =
      (run (ofArray [Value.val 1, .val 2, .val 3]) [.iterator, .next 0]
        (createSequence (ofArray [Value.val 1, .val 2, .val 3]))).2.state :=
  ⟨by decide, by decide, by decide, by decide,
    ((early_exit_closes_generator (ofArray [Value.val 1, .val 2, .val 3])
      [.iterator, .next 0, .next 0] 0 [.call, .iterator, .next 1] 0).1 (by decide)).2.1,
    ((early_exit_closes_generator (ofArray [Value.val 1, .val 2, .val 3])
      [.iterator, .next 0] 0 [] 0).2 (Or.inl (by decide))).1⟩

/-! ## Exhaustion -/

theorem perform_start_pulled (p : Producer α) (op : Op) (q : Sequence α)
    (h : q.state.generator = .suspendedStart → q.state.pulled = 0) :
    (perform p op q).2.state.generator = .suspendedStart →
      (perform p op q).2.state.pulled = 0 := by
  intro hg
  rcases perform_core p op q with h1 | h1 | h1
  · rw [h1.2.1]; exact h (h1.1 ▸ hg)
  · rw [h1.1] at hg; exact absurd hg (generatorNext_started p _)
  · rw [h1.1] at hg; cases hg

theorem run_start_pulled (p : Producer α) (ops : List Op) :
    ∀ q : Sequence α, (q.state.generator = .suspendedStart → q.state.pulled = 0) →
      (run p ops q).2.state.generator = .suspendedStart → (run p ops q).2.state.pulled = 0 := by
  induction ops with
  | nil => intro q h; exact h
  | cons o ops ih => intro q h; exact ih _ (perform_start_pulled p o q h)

theorem generatorNext_first {p : Producer α} {f : Nat → Pull α} (hp : Presents p f)
    {e0 : Value α} (he : f 0 = .yield e0) :
    (generatorNext p (createSequence p).state).1 = .yield e0 := by
  obtain ⟨n, hn⟩ := generatorNext_yield hp (createSequence p).state (fun h => by cases h) e0 he
  rw [hn]

/-- Once all the elements of `xs` are delivered the sequence is drained, with the
first element in the cache. -/
theorem drained_of_delivered {p : Producer α} {xs : List (Value α)}
    (hp : Presents p (listScript xs)) {e0 : Value α} (he : xs.head? = some e0)
    (ops : List Op)
    (hall : delivered (run p ops (createSequence p)).2.state = xs.length) :
    Drained p (run p ops (createSequence p)).2.state ∧
      (run p ops (createSequence p)).2.state.firstValue = e0 := by
  have hne : xs ≠ [] := by intro h; simp [h] at he
  have hpos : 0 < xs.length := List.length_pos.mpr hne
  have hc := run_coherent p ops _ (coherent_createSequence p)
  have hfc := run_firstCached (generatorNext_first hp (listScript_head he)) ops
    (createSequence p) (Or.inl ⟨rfl, by intro ph hph; cases hph⟩)
  have hsp := run_start_pulled p ops (createSequence p) (fun _ => rfl)
  have hsent : (run p ops (createSequence p)).2.state.firstValueSent = true := by
    cases hs : (run p ops (createSequence p)).2.state.firstValueSent
    · simp [delivered, hs] at hall; omega
    · rfl
  have hpulled : (run p ops (createSequence p)).2.state.pulled = xs.length := by
    simpa [delivered, hsent] using hall
  have htaken := hc.1 hsent
  have hfv : (run p ops (createSequence p)).2.state.firstValue = e0 := by
    rcases hfc with ⟨h, -⟩ | ⟨-, h⟩
    · rw [h] at htaken; cases htaken
    · exact h
  refine ⟨⟨htaken, hsent, ?_⟩, hfv⟩
  by_cases hg : (run p ops (createSequence p)).2.state.generator = .completed
  · rw [generatorNext_completed p _ hg]
  · obtain ⟨n, hn⟩ := generatorNext_done hp _ hg (by rw [hpulled]; simp [listScript])
    rw [hn]

/-- C18: for every finite non-empty producer with elements `xs` (first element `e0`),
once a series of operations has delivered all `|xs|` values through calls and
iterations, in whatever follows every call returns `undefined` without raising, no
iterator step delivers a value, a full iteration delivers nothing, and every
first-value read returns `e0`. -/
theorem exhaustion_is_absorbing (sh : Shape) (xs : List (Value α)) (e0 : Value α)
    (he : xs.head? = some e0) (ops rest : List Op) (fuel : Nat)
    (hall : delivered (run (finiteProducer sh xs) ops
      (createSequence (finiteProducer sh xs))).2.state = xs.length) :
    answers .call rest
        (run (finiteProducer sh xs) rest
          (run (finiteProducer sh xs) ops (createSequence (finiteProducer sh xs))).2).1 =
      List.replicate (rest.count .call) (.value .undefined) ∧
    answers .value rest
        (run (finiteProducer sh xs) rest
          (run (finiteProducer sh xs) ops (createSequence (finiteProducer sh xs))).2).1 =
      List.replicate (rest.count .value) (.value e0) ∧
    (∀ j, ∀ o ∈ answers (.next j) rest
        (run (finiteProducer sh xs) rest
          (run (finiteProducer sh xs) ops (createSequence (finiteProducer sh xs))).2).1,
      o = .done ∨ o = .unit) ∧
    (iterateAll (finiteProducer sh xs) (fuel + 1)
        (run (finiteProducer sh xs) rest
          (run (finiteProducer sh xs) ops
            (createSequence (finiteProducer sh xs))).2).2.state).map
      (fun r => (r.delivered, r.error)) = some ([], none) := by
  obtain ⟨hd, hfv⟩ := drained_of_delivered (presents_finiteProducer sh xs) he ops hall
  obtain ⟨d1, d2, d3, d4⟩ := run_drained (finiteProducer sh xs) rest _ hd
  rw [hfv] at d3
  exact ⟨d2, d3, d4, iterateAll_drained _ fuel _ d1⟩

theorem exhaustion_is_absorbing_witness :
    [Value.val 1, Value.val 2].head? = some (Value.val 1) ∧
    delivered (run (finiteProducer .array [Value.val 1, Value.val 2])
      [.call, .iterator, .next 0]
      (createSequence (finiteProducer .array [Value.val 1, Value.val 2]))).2.state =
        [Value.val 1, Value.val 2].length ∧
    (run (finiteProducer .array [Value.val 1, Value.val 2])
      [.call, .iterator, .next 0, .call, .value, .next 0, .call]
      (createSequence (finiteProducer .array [Value.val 1, Value.val 2]))).1 =
        [.value (.val 1), .unit, .value (.val 2), .value .undefined, .value (.val 1), .done,
          .value .undefined] ∧
    (answers .call [.call, .value, .next 0, .call]
        (run (finiteProducer .array [Value.val 1, Value.val 2]) [.call, .value, .next 0, .call]
          (run (finiteProducer .array [Value.val 1, Value.val 2]) [.call, .iterator, .next 0]
            (createSequence (finiteProducer .array [Value.val 1, Value.val 2]))).2).1 =
      List.replicate ([Op.call, .value, .next 0, .call].count .call) (.value .undefined) ∧
    answers .value [.call, .value, .next 0, .call]
        (run (finiteProducer .array [Value.val 1, Value.val 2]) [.call, .value, .next 0, .call]
          (run (finiteProducer .array [Value.val 1, Value.val 2]) [.call, .iterator, .next 0]
            (createSequence (finiteProducer .array [Value.val 1, Value.val 2]))).2).1 =
      List.replicate ([Op.call, .value, .next 0, .call].count .value)
        (.value (Value.val 1)) ∧
    (∀ j, ∀ o ∈ answers (.next j) [.call, .value, .next 0, .call]
        (run (finiteProducer .array [Value.val 1, Value.val 2]) [.call, .value, .next 0, .call]
          (run (finiteProducer .array [Value.val 1, Value.val 2]) [.call, .iterator, .next 0]
            (createSequence (finiteProducer .array [Value.val 1, Value.val 2]))).2).1,
      o = .done ∨ o = .unit) ∧
    (iterateAll (finiteProducer .array [Value.val 1, Value.val 2]) (0 + 1)
        (run (finiteProducer .array [Value.val 1, Value.val 2]) [.call, .value, .next 0, .call]
          (run (finiteProducer .array [Value.val 1, Value.val 2]) [.call, .iterator, .next 0]
            (createSequence (finiteProducer .array [Value.val 1, Value.val 2]))).2).2.state).map
      (fun r => (r.delivered, r.error)) = some ([], none)) :=
  ⟨by decide, by decide, by decide,
    exhaustion_is_absorbing .array [.val 1, .val 2] (.val 1) (by decide)
      [.call, .iterator, .next 0] [.call, .value, .next 0, .call] 0 (by decide)⟩

/-! ## Iteration steps and calls -/

theorem closed_perform (p : Producer α) (op : Op) (q : Sequence α) (h : Closed q.state) :
    Closed (perform p op q).2.state := by
  have hm := perform_flags p op q
  refine ⟨hm.1 h.1, hm.2.1 h.2.1, ?_⟩
  rcases perform_core p op q with h1 | h1 | h1
  · rw [h1.1]; exact h.2.2
  · rw [h1.1, generatorNext_completed p _ h.2.2]; exact h.2.2
  · exact h1.1

theorem get?_set_self_of_get? {l : List Phase} {i : Nat} {ph : Phase}
    (h : l.get? i = some ph) (x : Phase) : (l.set i x).get? i = some x := by
  have hlt : i < l.length := by
    rw [List.get?_eq_some] at h
    exact h.1
  simp [List.getElem?_set_self, hlt]

/-- Every operation keeps a sequence over the non-empty `xs` within `Traversal`. -/
theorem perform_traversal {p : Producer α} {xs : List (Value α)}
    (hp : Presents p (listScript xs)) (hne : xs ≠ []) (op : Op) (q : Sequence α)
    (h : Traversal xs q) : Traversal xs (perform p op q).2 := by
  have hpos : 0 < xs.length := List.length_pos.mpr hne
  rcases h with ⟨d, hd, hat, hit⟩ | hcl
  · -- one step of an iterator at phase `ph` that is under way
    have hstep : ∀ ph, (ph = .start ∨ q.state.firstValueSent = true) → ph ≠ .finished →
        ∃ d1, d1 ≤ xs.length ∧ At (listScript xs) d1 (nextValueNext p ph q.state).2.2 ∧
          (nextValueNext p ph q.state).2.2.firstValueSent = true := by
      intro ph hph hfin
      by_cases hlt : d < xs.length
      · have hv : listScript xs d = .yield xs[d] := by
          simp [listScript, List.getElem?_eq_getElem hlt]
        obtain ⟨ph1, s1, hN, hat1, hs1, -⟩ := nextValueNext_at_yield hp hat hv hph hfin
        exact ⟨d + 1, hlt, by rw [hN]; exact hat1, by rw [hN]; exact hs1⟩
      · have hd' : d = xs.length := by omega
        subst hd'
        have hv : listScript xs xs.length = .done := by simp [listScript]
        obtain ⟨s1, hN, hat1, hs1⟩ := nextValueNext_at_done hp hpos hv hat ph
        exact ⟨xs.length, le_refl _, by rw [hN]; exact hat1, by rw [hN]; exact hs1⟩
    cases op with
    | call =>
      obtain ⟨d1, h1, h2, h3⟩ := hstep .start (Or.inl rfl) (by simp)
      left
      refine ⟨d1, h1, ?_, ?_⟩
      · simp only [perform, apply_state]; exact h2
      · intro ph _
        right; right
        simp only [perform, apply_state]; exact h3
    | value =>
      have he0 : ∃ e0, listScript xs 0 = .yield e0 :=
        ⟨xs[0], by simp [listScript, List.getElem?_eq_getElem hpos]⟩
      obtain ⟨e0, he0⟩ := he0
      obtain ⟨s1, hG, hat1, hsent⟩ := getFirstValue_at hp he0 hat
      left
      refine ⟨d, hd, ?_, ?_⟩
      · simp only [perform, hG]; exact hat1
      · intro ph hph
        simp only [perform, hG]
        rw [hsent]
        exact hit ph hph
    | iterator =>
      left
      refine ⟨d, hd, hat, ?_⟩
      intro ph hph
      simp only [perform, List.mem_append, List.mem_singleton] at hph
      rcases hph with h1 | h1
      · exact hit ph h1
      · exact Or.inl h1
    | next i =>
      simp only [perform]
      cases hget : q.iterators.get? i with
      | none => exact Or.inl ⟨d, hd, hat, hit⟩
      | some ph =>
        by_cases hfin : ph = .finished
        · subst hfin
          left
          exact ⟨d, hd, hat, mem_set_of_forall hit i (Or.inr (Or.inl rfl))⟩
        · have hph : ph = .start ∨ q.state.firstValueSent = true := by
            rcases hit ph (List.get?_mem hget) with h1 | h1 | h1
            · exact Or.inl h1
            · exact absurd h1 hfin
            · exact Or.inr h1
          obtain ⟨d1, h1, h2, h3⟩ := hstep ph hph hfin
          left
          refine ⟨d1, h1, h2, ?_⟩
          intro ph1 _
          exact Or.inr (Or.inr h3)
    | ret i =>
      simp only [perform]
      cases hget : q.iterators.get? i with
      | none => exact Or.inl ⟨d, hd, hat, hit⟩
      | some ph =>
        by_cases h74 : ph = .yield74
        · subst h74
          right
          have hsent : q.state.firstValueSent = true := by
            rcases hit _ (List.get?_mem hget) with h1 | h1 | h1
            · cases h1
            · cases h1
            · exact h1
          have htaken : q.state.firstValueTaken = true := by
            rcases hat with ⟨-, -, h2, -⟩ | ⟨-, -, h2, -⟩ | ⟨-, h1, -⟩
            · rw [hsent] at h2; cases h2
            · rw [hsent] at h2; cases h2
            · exact h1
          exact ⟨htaken, hsent, rfl⟩
        · cases ph <;> first
            | exact absurd rfl h74
            | exact Or.inl ⟨d, hd, hat, mem_set_of_forall hit i (Or.inr (Or.inl rfl))⟩
    | set => exact Or.inl ⟨d, hd, hat, hit⟩
    | setPrototypeOf => exact Or.inl ⟨d, hd, hat, hit⟩
  · exact Or.inr (closed_perform p op q hcl)

theorem run_traversal {p : Producer α} {xs : List (Value α)}
    (hp : Presents p (listScript xs)) (hne : xs ≠ []) (ops : List Op) :
    ∀ q : Sequence α, Traversal xs q → Traversal xs (run p ops q).2 := by
  induction ops with
  | nil => intro q h; exact h
  | cons o ops ih => intro q h; exact ih _ (perform_traversal hp hne o q h)

theorem drop_take_succ (xs : List (Value α)) (d k : Nat) (h : d < xs.length) :
    (xs.drop d).take (k + 1) = xs[d] :: (xs.drop (d + 1)).take k := by
  rw [List.drop_eq_getElem_cons h, List.take_succ_cons]

/-- From position `d`, `k` calls return the next `k` elements. -/
theorem run_calls_at {p : Producer α} {xs : List (Value α)}
    (hp : Presents p (listScript xs)) :
    ∀ (k d : Nat) (q : Sequence α), At (listScript xs) d q.state → d + k ≤ xs.length →
      (run p (List.replicate k .call) q).1 = ((xs.drop d).take k).map .value := by
  intro k
  induction k with
  | zero => intro d q _ _; rfl
  | succ k ih =>
    intro d q hat hk
    have hlt : d < xs.length := by omega
    have hv : listScript xs d = .yield xs[d] := by
      simp [listScript, List.getElem?_eq_getElem hlt]
    obtain ⟨s1, hA, hat1⟩ := apply_at_yield hp hat hv
    have hP : perform p .call q = (.value xs[d], { q with state := s1 }) := by
      simp [perform, hA, Outcome.ofExcept]
    have := ih (d + 1) { q with state := s1 } hat1 (by omega)
    simp only [List.replicate_succ, run, hP, this, drop_take_succ xs d k hlt, List.map_cons]

/-- From position `d`, `k` steps of an iterator under way deliver the next `k`
elements. -/
theorem run_steps_at {p : Producer α} {xs : List (Value α)}
    (hp : Presents p (listScript xs)) (i : Nat) :
    ∀ (k d : Nat) (q : Sequence α) (ph : Phase), At (listScript xs) d q.state →
      q.iterators.get? i = some ph → (ph = .start ∨ q.state.firstValueSent = true) →
      ph ≠ .finished → d + k ≤ xs.length →
      (run p (List.replicate k (.next i)) q).1 = ((xs.drop d).take k).map .value := by
  intro k
  induction k with
  | zero => intro d q ph _ _ _ _ _; rfl
  | succ k ih =>
    intro d q ph hat hget hph hfin hk
    have hlt : d < xs.length := by omega
    have hv : listScript xs d = .yield xs[d] := by
      simp [listScript, List.getElem?_eq_getElem hlt]
    obtain ⟨ph1, s1, hN, hat1, hs1, hf1⟩ := nextValueNext_at_yield hp hat hv hph hfin
    have hP : perform p (.next i) q =
        (.value xs[d], { state := s1, iterators := q.iterators.set i ph1 }) := by
      simp only [perform, hget, hN, Outcome.ofPull]
    have := ih (d + 1) { state := s1, iterators := q.iterators.set i ph1 } ph1 hat1
      (get?_set_self_of_get? hget ph1) (Or.inr hs1) hf1 (by omega)
    simp only [List.replicate_succ, run, hP, this, drop_take_succ xs d k hlt, List.map_cons]

/-- C15 (the claim fails): over the array `[1, 2, 3]`, after an iteration that
delivered `1` and `2` and was left early, the element `3` is still undelivered, yet
the first step of a new iteration delivers nothing (the iteration is at its end)
while a call returns `undefined`; neither gives `3`. -/
theorem steps_and_calls_differ_after_early_exit :
    delivered (run (finiteProducer .array [Value.val 1, Value.val 2, Value.val 3])
      [.iterator, .next 0, .next 0, .ret 0]
      (createSequence
        (finiteProducer .array [Value.val 1, Value.val 2, Value.val 3]))).2.state = 2 ∧
    (run (finiteProducer .array [Value.val 1, Value.val 2, Value.val 3])
      [.iterator, .next 0, .next 0, .ret 0]
      (createSequence
        (finiteProducer .array [Value.val 1, Value.val 2, Value.val 3]))).2.state.generator =
      .completed ∧
    (run (finiteProducer .array [Value.val 1, Value.val 2, Value.val 3])
      [.iterator, .next 0, .next 0, .ret 0, .iterator, .next 1]
      (createSequence (finiteProducer .array [Value.val 1, Value.val 2, Value.val 3]))).1 =
      [.unit, .value (.val 1), .value (.val 2), .done, .unit, .done] ∧
    (run (finiteProducer .array [Value.val 1, Value.val 2, Value.val 3])
      [.iterator, .next 0, .next 0, .ret 0, .call]
      (createSequence (finiteProducer .array [Value.val 1, Value.val 2, Value.val 3]))).1 =
      [.unit, .value (.val 1), .value (.val 2), .done, .value .undefined] :=
  ⟨by decide, by decide, by decide, by decide⟩

/-- C15 (amended): for every finite producer with elements `xs`, every state reached
from the fresh sequence by any series of operations in which `generator` is not
completed (in particular not closed by an early exit of an iteration), and every `k`
not above the number of elements not delivered yet: the first `k` steps of an iterator
newly obtained in that state deliver the same values as `k` successive calls made from
that state, namely the next `k` elements of `xs`. -/
theorem iteration_steps_equal_calls (sh : Shape) (xs : List (Value α)) (ops : List Op)
    (k : Nat)
    (hopen : (run (finiteProducer sh xs) ops
      (createSequence (finiteProducer sh xs))).2.state.generator ≠ .completed)
    (hk : delivered (run (finiteProducer sh xs) ops
      (createSequence (finiteProducer sh xs))).2.state + k ≤ xs.length) :
    (run (finiteProducer sh xs)
        (List.replicate k
          (.next (run (finiteProducer sh xs) ops
            (createSequence (finiteProducer sh xs))).2.iterators.length))
        (perform (finiteProducer sh xs) .iterator
          (run (finiteProducer sh xs) ops (createSequence (finiteProducer sh xs))).2).2).1 =
      (run (finiteProducer sh xs) (List.replicate k .call)
        (run (finiteProducer sh xs) ops (createSequence (finiteProducer sh xs))).2).1 ∧
    (run (finiteProducer sh xs) (List.replicate k .call)
        (run (finiteProducer sh xs) ops (createSequence (finiteProducer sh xs))).2).1 =
      ((xs.drop (delivered
        (run (finiteProducer sh xs) ops
          (createSequence (finiteProducer sh xs))).2.state)).take k).map .value := by
  have hp := presents_finiteProducer sh xs
  by_cases hk0 : k = 0
  · subst hk0
    exact ⟨rfl, rfl⟩
  have hne : xs ≠ [] := by
    intro h
    subst h
    simp at hk
    exact hk0 hk.2
  have htr := run_traversal hp hne ops (createSequence (finiteProducer sh xs))
    (Or.inl ⟨0, Nat.zero_le _, at_createSequence _ _, fun ph hph => by cases hph⟩)
  rcases htr with ⟨d, hd, hat, hit⟩ | hcl
  · have hdel : delivered (run (finiteProducer sh xs) ops
        (createSequence (finiteProducer sh xs))).2.state = d := by
      rcases hat with ⟨h0, -, h2, -⟩ | ⟨h0, -, h2, -⟩ | ⟨-, -, h2, -, h4, -⟩
      · simp [delivered, h2, h0]
      · simp [delivered, h2, h0]
      · simp [delivered, h2, h4]
    have hdk : d + k ≤ xs.length := by
      rw [hdel] at hk
      exact hk
    have hcalls := run_calls_at hp k d _ hat hdk
    have hsteps := run_steps_at hp
      (run (finiteProducer sh xs) ops (createSequence (finiteProducer sh xs))).2.iterators.length
      k d (perform (finiteProducer sh xs) .iterator
        (run (finiteProducer sh xs) ops (createSequence (finiteProducer sh xs))).2).2
      .start hat (by simp [perform]) (Or.inl rfl) (by simp) hdk
    rw [hdel]
    exact ⟨hsteps.trans hcalls.symm, hcalls⟩
  · exact absurd hcl.2.2 hopen

theorem iteration_steps_equal_calls_witness :
    (run (finiteProducer .iterable [Value.val 1, Value.val 2, Value.val 3]) [.value, .call]
      (createSequence
        (finiteProducer .iterable [Value.val 1, Value.val 2, Value.val 3]))).2.state.generator ≠
      .completed ∧
    delivered (run (finiteProducer .iterable [Value.val 1, Value.val 2, Value.val 3])
      [.value, .call]
      (createSequence
        (finiteProducer .iterable [Value.val 1, Value.val 2, Value.val 3]))).2.state + 2 ≤
      [Value.val 1, Value.val 2, Value.val 3].length ∧
    (run (finiteProducer .iterable [Value.val 1, Value.val 2, Value.val 3])
      (List.replicate 2 .call)
      (run (finiteProducer .iterable [Value.val 1, Value.val 2, Value.val 3]) [.value, .call]
        (createSequence
          (finiteProducer .iterable [Value.val 1, Value.val 2, Value.val 3]))).2).1 =
      [.value (.val 2), .value (.val 3)] ∧
    ((run (finiteProducer .iterable [Value.val 1, Value.val 2, Value.val 3])
        (List.replicate 2
          (.next (run (finiteProducer .iterable [Value.val 1, Value.val 2, Value.val 3])
            [.value, .call]
            (createSequence
              (finiteProducer .iterable [Value.val 1, Value.val 2, Value.val 3]))).2.iterators.length))
        (perform (finiteProducer .iterable [Value.val 1, Value.val 2, Value.val 3]) .iterator
          (run (finiteProducer .iterable [Value.val 1, Value.val 2, Value.val 3]) [.value, .call]
            (createSequence
              (finiteProducer .iterable [Value.val 1, Value.val 2, Value.val 3]))).2).2).1 =
      (run (finiteProducer .iterable [Value.val 1, Value.val 2, Value.val 3])
        (List.replicate 2 .call)
        (run (finiteProducer .iterable [Value.val 1, Value.val 2, Value.val 3]) [.value, .call]
          (createSequence
            (finiteProducer .iterable [Value.val 1, Value.val 2, Value.val 3]))).2).1 ∧
    (run (finiteProducer .iterable [Value.val 1, Value.val 2, Value.val 3])
        (List.replicate 2 .call)
        (run (finiteProducer .iterable [Value.val 1, Value.val 2, Value.val 3]) [.value, .call]
          (createSequence
            (finiteProducer .iterable [Value.val 1, Value.val 2, Value.val 3]))).2).1 =
      (([Value.val 1, Value.val 2, Value.val 3].drop (delivered
        (run (finiteProducer .iterable [Value.val 1, Value.val 2, Value.val 3]) [.value, .call]
          (createSequence
            (finiteProducer .iterable [Value.val 1, Value.val 2, Value.val 3]))).2.state)).take
        2).map .value) :=
  ⟨by decide, by decide, by decide,
    iteration_steps_equal_calls .iterable [.val 1, .val 2, .val 3] [.value, .call] 2
      (by decide) (by decide)⟩

/-! ## The invocations of a repeatable callable -/

theorem generatorNext_invoked_function (v : Nat → Value α) (s : State α)
    (h : s.invoked = s.pulled) :
    (generatorNext (ofFunction fun k => .ok (v k)) s).2.invoked =
      (generatorNext (ofFunction fun k => .ok (v k)) s).2.pulled := by
  have hc : callsProducer (ofFunction fun k => Except.ok (v k)) = true := rfl
  have hi : invokesGenerator (ofFunction fun k => Except.ok (v k)) = false := rfl
  have ho : producerIterator (ofFunction fun k => Except.ok (v k)) = .ok none := rfl
  have hl : ∀ k, loopPull (ofFunction fun k => Except.ok (v k)) k = .yield (v k) :=
    fun _ => rfl
  rcases s with ⟨fv, tk, st, g, pl, inv⟩
  simp only at h
  subst h
  cases g <;> simp [generatorNext, generatorResume, hc, hi, ho, hl]

theorem run_invoked_function (v : Nat → Value α) (ops : List Op) :
    ∀ q : Sequence α, q.state.invoked = q.state.pulled →
      (run (ofFunction fun k => .ok (v k)) ops q).2.state.invoked =
        (run (ofFunction fun k => .ok (v k)) ops q).2.state.pulled := by
  induction ops with
  | nil => intro q h; exact h
  | cons o ops ih =>
    intro q h
    apply ih
    rcases perform_core (ofFunction fun k => .ok (v k)) o q with h1 | h1 | h1
    · rw [h1.2.1, h1.2.2]; exact h
    · rw [h1.2.1, h1.2.2]; exact generatorNext_invoked_function v _ h
    · rw [h1.2.1, h1.2.2]; exact h

theorem at_succ_flags {f : Nat → Pull α} {d : Nat} {s : State α} (h : At f (d + 1) s) :
    s.firstValueTaken = true ∧ s.firstValueSent = true := by
  rcases h with ⟨h0, -⟩ | ⟨h0, -⟩ | ⟨-, h1, h2, -⟩
  · omega
  · omega
  · exact ⟨h1, h2⟩

theorem getFirstValue_ok_taken (p : Producer α) (s : State α) (v : Value α)
    (h : (getFirstValue p s).1 = .ok v) : (getFirstValue p s).2.firstValueTaken = true := by
  by_cases ht : s.firstValueTaken = true
  · rw [getFirstValue_taken p s ht]; exact ht
  · have ht' : s.firstValueTaken = false := by simpa using ht
    simp only [getFirstValue, ht'] at h ⊢
    rcases hg : generatorNext p s with ⟨r, s1⟩
    rw [hg] at h
    cases r
    · rfl
    · rfl
    · cases h

theorem completedSteps_cons (op : Op) (ops : List Op) (o : Outcome α) (out : List (Outcome α)) :
    completedSteps (op :: ops) (o :: out) =
      (if op.isStep && o.isValue then 1 else 0) + completedSteps ops out := rfl

/-- A series of operations without early exit on the sequence of a function that
always returns: the position moves by the number of completed steps, and the first
value is taken exactly when it was before or a read or a completed step occurred. -/
theorem run_function_at (v : Nat → Value α) (ops : List Op) :
    ∀ (d : Nat) (q : Sequence α), (∀ op ∈ ops, op.isExit = false) →
      At (fun k => .yield (v k)) d q.state →
      (∀ ph ∈ q.iterators, ph ≠ .finished ∧ (ph = .start ∨ q.state.firstValueSent = true)) →
      At (fun k => .yield (v k))
          (d + completedSteps ops (run (ofFunction fun k => .ok (v k)) ops q).1)
          (run (ofFunction fun k => .ok (v k)) ops q).2.state ∧
        ((q.state.firstValueTaken = true ∨ 1 ≤ ops.count .value) →
          (run (ofFunction fun k => .ok (v k)) ops q).2.state.firstValueTaken = true) ∧
        (q.state.firstValueTaken = false → ops.count .value = 0 →
          completedSteps ops (run (ofFunction fun k => .ok (v k)) ops q).1 = 0 →
          (run (ofFunction fun k => .ok (v k)) ops q).2.state.firstValueTaken = false) := by
  have hp := presents_ofFunction v
  induction ops with
  | nil =>
    intro d q _ hat _
    refine ⟨by simpa [run, completedSteps] using hat, ?_, fun h _ _ => h⟩
    rintro (h | h)
    · exact h
    · simp at h
  | cons o ops ih =>
    intro d q hops hat hit
    have hrest : ∀ op ∈ ops, op.isExit = false := fun op h => hops op (by simp [h])
    -- an operation that changes nothing and completes no step
    have hskip : ∀ (r : Outcome α) (its : List Phase), r.isValue = false →
        perform (ofFunction fun k => .ok (v k)) o q = (r, { q with iterators := its }) →
        (∀ ph ∈ its, ph ≠ .finished ∧ (ph = .start ∨ q.state.firstValueSent = true)) →
        o ≠ .value →
        At (fun k => .yield (v k))
            (d + completedSteps (o :: ops) (run (ofFunction fun k => .ok (v k)) (o :: ops) q).1)
            (run (ofFunction fun k => .ok (v k)) (o :: ops) q).2.state ∧
          ((q.state.firstValueTaken = true ∨ 1 ≤ (o :: ops).count .value) →
            (run (ofFunction fun k => .ok (v k)) (o :: ops) q).2.state.firstValueTaken = true) ∧
          (q.state.firstValueTaken = false → (o :: ops).count .value = 0 →
            completedSteps (o :: ops)
              (run (ofFunction fun k => .ok (v k)) (o :: ops) q).1 = 0 →
            (run (ofFunction fun k => .ok (v k)) (o :: ops) q).2.state.firstValueTaken =
              false) := by
      intro r its hr hP hits hne
      obtain ⟨c1, c2, c3⟩ := ih d { q with iterators := its } hrest hat hits
      simp only [run, hP, completedSteps_cons, hr, Bool.and_false, Bool.false_eq_true,
        if_false, Nat.zero_add, List.count_cons_of_ne (Ne.symm hne)]
      exact ⟨c1, c2, c3⟩
    -- an operation that completes a step
    have hstepped : ∀ (w : Value α) (s1 : State α) (its : List Phase), o.isStep = true →
        perform (ofFunction fun k => .ok (v k)) o q = (.value w, { state := s1, iterators := its }) →
        At (fun k => .yield (v k)) (d + 1) s1 →
        (∀ ph ∈ its, ph ≠ .finished) →
        At (fun k => .yield (v k))
            (d + completedSteps (o :: ops) (run (ofFunction fun k => .ok (v k)) (o :: ops) q).1)
            (run (ofFunction fun k => .ok (v k)) (o :: ops) q).2.state ∧
          ((q.state.firstValueTaken = true ∨ 1 ≤ (o :: ops).count .value) →
            (run (ofFunction fun k => .ok (v k)) (o :: ops) q).2.state.firstValueTaken = true) ∧
          (q.state.firstValueTaken = false → (o :: ops).count .value = 0 →
            completedSteps (o :: ops)
              (run (ofFunction fun k => .ok (v k)) (o :: ops) q).1 = 0 →
            (run (ofFunction fun k => .ok (v k)) (o :: ops) q).2.state.firstValueTaken =
              false) := by
      intro w s1 its hs hP hat1 hits
      have hfl := at_succ_flags hat1
      obtain ⟨c1, c2, -⟩ := ih (d + 1) { state := s1, iterators := its } hrest hat1
        (fun ph hph => ⟨hits ph hph, Or.inr hfl.2⟩)
      simp only [run, hP, completedSteps_cons, hs, Outcome.isValue, Bool.and_self, if_true]
      refine ⟨?_, fun _ => c2 (Or.inl hfl.1), ?_⟩
      · have : d + (1 + completedSteps ops
            (run (ofFunction fun k => .ok (v k)) ops { state := s1, iterators := its }).1) =
            d + 1 + completedSteps ops
              (run (ofFunction fun k => .ok (v k)) ops { state := s1, iterators := its }).1 := by
          omega
        rw [this]
        exact c1
      · intro _ _ h
        omega
    cases o with
    | call =>
      obtain ⟨s1, hA, hat1⟩ := apply_at_yield hp hat (rfl : (fun k => Pull.yield (v k)) d = .yield (v d))
      exact hstepped (v d) s1 q.iterators rfl (by simp [perform, hA, Outcome.ofExcept]) hat1
        (fun ph hph => (hit ph hph).1)
    | value =>
      obtain ⟨s1, hG, hat1, hsent⟩ := getFirstValue_at hp
        (rfl : (fun k => Pull.yield (v k)) 0 = .yield (v 0)) hat
      have htk : s1.firstValueTaken = true := by
        have := getFirstValue_ok_taken _ q.state (v 0) (by rw [hG])
        rw [hG] at this
        exact this
      have hP : perform (ofFunction fun k => .ok (v k)) .value q =
          (.value (v 0), { q with state := s1 }) := by
        simp [perform, hG, Outcome.ofExcept]
      obtain ⟨c1, c2, -⟩ := ih d { q with state := s1 } hrest hat1
        (fun ph hph => ⟨(hit ph hph).1, by rw [hsent]; exact (hit ph hph).2⟩)
      simp only [run, hP, completedSteps_cons, Op.isStep, Bool.false_and, Bool.false_eq_true,
        if_false, Nat.zero_add, List.count_cons_self]
      exact ⟨c1, fun _ => c2 (Or.inl htk), fun _ h => by omega⟩
    | iterator =>
      refine hskip .unit (q.iterators ++ [Phase.start]) rfl rfl ?_ (by decide)
      intro ph hph
      simp only [List.mem_append, List.mem_singleton] at hph
      rcases hph with h1 | h1
      · exact hit ph h1
      · subst h1
        exact ⟨by decide, Or.inl rfl⟩
    | next i =>
      cases hget : q.iterators.get? i with
      | none =>
        exact hskip .unit q.iterators rfl (by simp only [perform, hget]) hit
          (fun h => by cases h)
      | some ph =>
        have hph := hit ph (List.get?_mem hget)
        obtain ⟨ph1, s1, hN, hat1, hs1, hf1⟩ := nextValueNext_at_yield hp hat
          (rfl : (fun k => Pull.yield (v k)) d = .yield (v d)) hph.2 hph.1
        refine hstepped (v d) s1 (q.iterators.set i ph1) rfl
          (by simp only [perform, hget, hN, Outcome.ofPull]) hat1 ?_
        intro ph2 hph2
        rcases List.mem_or_eq_of_mem_set hph2 with h1 | h1
        · exact (hit ph2 h1).1
        · rw [h1]; exact hf1
    | ret i =>
      have := hops (.ret i) (by simp)
      cases this
    | set =>
      exact hskip (.error "This operation is not allowed") q.iterators rfl rfl hit
        (by decide)
    | setPrototypeOf =>
      exact hskip (.error "This operation is not allowed") q.iterators rfl rfl hit
        (by decide)

theorem generatorNext_function (p : Producer α) (hp : specVariant p = .repeatableCallable)
    (hnull : p.prototype ≠ .null) :
    generatorNext p = generatorNext (ofFunction p.result) := by
  have h : producerIterator p = .ok none ∧ callsProducer p = true ∧
      invokesGenerator p = false ∧ ∀ k, loopPull p k = loopPull (ofFunction p.result) k := by
    rcases p with ⟨kind, it, proto, inv, len, item, result⟩
    rcases kind with _ | _ | _ | ⟨_ | _⟩ | _ <;> cases it <;> cases proto <;> cases len <;>
      simp [loopPull, producerIterator, specVariant, isFunction, callsProducer,
        invokesGenerator, ofFunction] at hp hnull ⊢
  have h1 : callsProducer (ofFunction p.result) = true := rfl
  have h2 : invokesGenerator (ofFunction p.result) = false := rfl
  have h3 : producerIterator (ofFunction p.result) = .ok none := rfl
  funext s
  rcases s with ⟨fv, tk, st, g, pl, inv⟩
  cases g <;> simp [generatorNext, generatorResume, h.1, h.2.1, h.2.2.1, h.2.2.2, h1, h2, h3]

theorem run_congr {p r : Producer α} (h : generatorNext p = generatorNext r)
    (ops : List Op) : ∀ q, run p ops q = run r ops q := by
  have hperf := perform_congr h
  induction ops with
  | nil => intro q; rfl
  | cons o ops ih => intro q; simp only [run, hperf, ih]

theorem run_ofFunction_invocations (v : Nat → Value α) (ops : List Op)
    (hops : ∀ op ∈ ops, op.isExit = false) :
    (createSequence (ofFunction fun k => .ok (v k))).state.invoked = 0 ∧
    (run (ofFunction fun k => .ok (v k)) ops
        (createSequence (ofFunction fun k => .ok (v k)))).2.state.invoked =
      if 1 ≤ completedSteps ops
          (run (ofFunction fun k => .ok (v k)) ops
            (createSequence (ofFunction fun k => .ok (v k)))).1 then
        completedSteps ops
          (run (ofFunction fun k => .ok (v k)) ops
            (createSequence (ofFunction fun k => .ok (v k)))).1
      else if 1 ≤ ops.count .value then 1 else 0 := by
  refine ⟨rfl, ?_⟩
  have hinv := run_invoked_function v ops (createSequence (ofFunction fun k => .ok (v k))) rfl
  obtain ⟨hat, h1, h2⟩ := run_function_at v ops 0
    (createSequence (ofFunction fun k => .ok (v k))) hops (at_createSequence _ _)
    (fun ph hph => by cases hph)
  rw [hinv]
  simp only [Nat.zero_add] at hat
  by_cases hk : 1 ≤ completedSteps ops
      (run (ofFunction fun k => .ok (v k)) ops
        (createSequence (ofFunction fun k => .ok (v k)))).1
  · rw [if_pos hk]
    rcases hat with ⟨h0, -⟩ | ⟨h0, -⟩ | ⟨-, -, -, -, h4, -⟩
    · omega
    · omega
    · exact h4
  · rw [if_neg hk]
    have hk0 : completedSteps ops
        (run (ofFunction fun k => .ok (v k)) ops
          (createSequence (ofFunction fun k => .ok (v k)))).1 = 0 := by omega
    by_cases hr : 1 ≤ ops.count .value
    · rw [if_pos hr]
      have ht := h1 (Or.inr hr)
      rcases hat with ⟨-, h5, -⟩ | ⟨-, -, -, -, h4, -⟩ | ⟨h0, -⟩
      · rw [ht] at h5; cases h5
      · exact h4
      · omega
    · rw [if_neg hr]
      have ht := h2 rfl (by omega) hk0
      rcases hat with ⟨-, -, -, -, h4⟩ | ⟨-, h5, -⟩ | ⟨h0, -⟩
      · exact h4
      · rw [ht] at h5; cases h5
      · omega

/-- C13 (the claim fails): `failsSecond` throws at its second invocation; of four
calls, three return a value (the last two `undefined`) and the function is invoked
twice, not three or four times.  `counter`, after an iteration that delivered two
values and was left early, answers two more calls without being invoked again: four
completed steps, two invocations.  And a function whose `prototype` is `null` is
never invoked: the first call throws a `TypeError` at line 29, the second returns
`undefined`. -/
theorem closed_generator_invokes_no_more :
    (run failsSecond [.call, .call, .call, .call] (createSequence failsSecond)).1 =
      [.value (.val 0), .error "boom", .value .undefined, .value .undefined] ∧
    completedSteps [Op.call, .call, .call, .call]
      (run failsSecond [.call, .call, .call, .call] (createSequence failsSecond)).1 = 3 ∧
    (run failsSecond [.call, .call, .call, .call]
      (createSequence failsSecond)).2.state.invoked = 2 ∧
    (run counter [.iterator, .next 0, .next 0, .ret 0, .call, .call]
      (createSequence counter)).1 =
      [.unit, .value (.val 0), .value (.val 1), .done, .value .undefined,
        .value .undefined] ∧
    completedSteps [Op.iterator, .next 0, .next 0, .ret 0, .call, .call]
      (run counter [.iterator, .next 0, .next 0, .ret 0, .call, .call]
        (createSequence counter)).1 = 4 ∧
    (run counter [.iterator, .next 0, .next 0, .ret 0, .call, .call]
      (createSequence counter)).2.state.invoked = 2 ∧
    specVariant nullPrototypeCounter = .repeatableCallable ∧
    (run nullPrototypeCounter [.call, .call] (createSequence nullPrototypeCounter)).1 =
      [.error "TypeError", .value .undefined] ∧
    (run nullPrototypeCounter [.call, .call]
      (createSequence nullPrototypeCounter)).2.state.invoked = 0 :=
  ⟨by decide, by decide, by decide, by decide, by decide, by decide, by decide, by decide,
    by decide⟩

/-- C13 (amended): for every repeatable callable (a function without iterator, of its
own or on its `prototype`) whose `prototype` is not `null` and that never throws:
creating the sequence invokes it zero times, and after any series of operations
without early exit of an iteration, holding `p` first-value reads and `k` completed
steps (calls and iterator steps that returned or delivered a value), it has been
invoked exactly `k` times if `k >= 1`, once if `k = 0` and `p >= 1`, and not at all if
`k = p = 0`. -/
theorem function_invoked_as_requested (p : Producer α) (v : Nat → Value α)
    (ops : List Op) (hp : specVariant p = .repeatableCallable)
    (hnull : p.prototype ≠ .null) (hv : ∀ k, p.result k = .ok (v k))
    (hops : ∀ op ∈ ops, op.isExit = false) :
    (createSequence p).state.invoked = 0 ∧
    (run p ops (createSequence p)).2.state.invoked =
      if 1 ≤ completedSteps ops (run p ops (createSequence p)).1 then
        completedSteps ops (run p ops (createSequence p)).1
      else if 1 ≤ ops.count .value then 1 else 0 := by
  have hr : p.result = fun k => .ok (v k) := funext hv
  have hrun := run_congr (generatorNext_function p hp hnull) ops (createSequence p)
  rw [hr] at hrun
  rw [hrun]
  exact run_ofFunction_invocations v ops hops

theorem function_invoked_as_requested_witness :
    specVariant (ofFunction fun k => .ok (Value.val (42 + k))) = .repeatableCallable ∧
    (ofFunction fun k => .ok (Value.val (42 + k))).prototype ≠ .null ∧
    (∀ op ∈ [Op.value, .call, .value, .iterator, .next 0, .call], op.isExit = false) ∧
    (run (ofFunction fun k => .ok (Value.val (42 + k)))
        [.value, .call, .value, .iterator, .next 0, .call]
        (createSequence (ofFunction fun k => .ok (Value.val (42 + k))))).1 =
      [.value (.val 42), .value (.val 42), .value (.val 42), .unit, .value (.val 43),
        .value (.val 44)] ∧
    completedSteps [Op.value, .call, .value, .iterator, .next 0, .call]
      (run (ofFunction fun k => .ok (Value.val (42 + k)))
        [.value, .call, .value, .iterator, .next 0, .call]
        (createSequence (ofFunction fun k => .ok (Value.val (42 + k))))).1 = 3 ∧
    (run (ofFunction fun k => .ok (Value.val (42 + k)))
        [.value, .call, .value, .iterator, .next 0, .call]
        (createSequence (ofFunction fun k => .ok (Value.val (42 + k))))).2.state.invoked = 3 ∧
    ((createSequence (ofFunction fun k => .ok (Value.val (42 + k)))).state.invoked = 0 ∧
      (run (ofFunction fun k => .ok (Value.val (42 + k)))
          [.value, .call, .value, .iterator, .next 0, .call]
          (createSequence (ofFunction fun k => .ok (Value.val (42 + k))))).2.state.invoked =
        if 1 ≤ completedSteps [Op.value, .call, .value, .iterator, .next 0, .call]
            (run (ofFunction fun k => .ok (Value.val (42 + k)))
              [.value, .call, .value, .iterator, .next 0, .call]
              (createSequence (ofFunction fun k => .ok (Value.val (42 + k))))).1 then
          completedSteps [Op.value, .call, .value, .iterator, .next 0, .call]
            (run (ofFunction fun k => .ok (Value.val (42 + k)))
              [.value, .call, .value, .iterator, .next 0, .call]
              (createSequence (ofFunction fun k => .ok (Value.val (42 + k))))).1
        else if 1 ≤ [Op.value, .call, .value, .iterator, .next 0, .call].count .value then 1
        else 0) :=
  ⟨by decide, by decide, by decide, by decide, by decide, by decide,
    function_invoked_as_requested (ofFunction fun k => .ok (Value.val (42 + k)))
      (fun k => Value.val (42 + k))
      [.value, .call, .value, .iterator, .next 0, .call] (by decide) (by decide)
      (fun _ => rfl) (by decide)⟩


end CreateSequence
